import Mathlib

/-!
Verification development for a browser vocabulary-annotation extension.

The program has two cooperating components acting on one live document:
a selection-gesture resolver (double-click, 200 ms delay, confirming
single click) and an annotation engine that scans text nodes for
vocabulary terms and rewrites each matching text node into a sequence of
plain-text fragments and inline "bubble" marker nodes.  Supporting logic
stores a vocabulary list (update-in-place keyed by case-insensitive
word) and routes lookups through a background handler that fails early
when no API key is configured.

The embedding below models document text as `List Char`.  Text nodes of
one eligible parent element (visible, not one of the excluded tags, no
pre-existing bubble among its children before a scan) are modelled as a
flat list of nodes.  JavaScript string primitives used by the source
(`substring` with its argument-swapping behaviour, `trim`,
`toLowerCase` on ASCII letters, regular-expression word boundaries
`\b` over the word-character class `[A-Za-z0-9_]`) are modelled
explicitly.
-/

/-- Document text, modelled as a list of characters. -/
abbrev Str := List Char

/-- The regular-expression word-character class `[A-Za-z0-9_]` used by
the `\b` boundaries that `scanPageForVocabulary` compiles around each
vocabulary word, written on code points: `A–Z`, `a–z`, `0–9`, `_`. -/
def isWordChar (c : Char) : Bool :=
  decide ((65 ≤ c.toNat ∧ c.toNat ≤ 90) ∨ (97 ≤ c.toNat ∧ c.toNat ≤ 122) ∨
    (48 ≤ c.toNat ∧ c.toNat ≤ 57) ∨ c.toNat = 95)

/-- ASCII lower-casing of one character, as performed by
`toLowerCase`/the `i` regular-expression flag on ASCII input: code
points `65–90` shift by 32, everything else is unchanged. -/
def lowerChar (c : Char) : Char :=
  if 65 ≤ c.toNat ∧ c.toNat ≤ 90 then Char.ofNat (c.toNat + 32) else c

/-- Lower-casing of a whole string. -/
def lowerStr (s : Str) : Str := s.map lowerChar

/-- `String.prototype.trim`: drop whitespace from both ends. -/
def jsTrim (s : Str) : Str :=
  ((s.dropWhile Char.isWhitespace).reverse.dropWhile Char.isWhitespace).reverse

/-- The half-open slice `[a, b)` of a string (no clamping; used for
in-bounds extraction). -/
def strSlice (s : Str) (a b : Nat) : Str := (s.drop a).take (b - a)

/-- `String.prototype.substring(a, b)`: clamps both arguments to the
string length and swaps them when `a > b`. -/
def jsSubstring (s : Str) (a b : Nat) : Str :=
  let a' := min a s.length
  let b' := min b s.length
  strSlice s (min a' b') (max a' b')

/-- Whether the character at index `i` exists and is a word character. -/
def wordAt (s : Str) (i : Nat) : Bool :=
  match s[i]? with
  | some c => isWordChar c
  | none => false

/-- The regular-expression boundary `\b` at position `i` of `s`:
the word-character statuses on the two sides of the position differ
(positions outside the string count as non-word). -/
def boundaryAt (s : Str) (i : Nat) : Bool :=
  (if i = 0 then false else wordAt s (i - 1)) != wordAt s i

/-- A whole-word, case-insensitive occurrence of `w` at index `i` of
`s`: the pattern `\b<w>\b` with flags `gi` matches there.  This is the
pattern `scanPageForVocabulary` compiles from each vocabulary word
(after escaping regular-expression metacharacters). -/
def occursAt (w s : Str) (i : Nat) : Bool :=
  decide (i + w.length ≤ s.length) &&
    (lowerStr (strSlice s i (i + w.length)) == lowerStr w) &&
    boundaryAt s i && boundaryAt s (i + w.length)

/-- Positions found by repeatedly calling `pattern.exec(text)` on a
global regular expression starting from position `i`: after a match at
`p` the search resumes at `p + w.length` (the regex `lastIndex`),
otherwise at the next position.  The first argument is fuel; it is
always called with enough fuel to cover the whole remaining text. -/
def matchPosAux (w s : Str) : Nat → Nat → List Nat
  | 0, _ => []
  | fuel + 1, i =>
    if 0 < w.length ∧ i + w.length ≤ s.length then
      if occursAt w s i then i :: matchPosAux w s fuel (i + w.length)
      else matchPosAux w s fuel (i + 1)
    else []

/-- All match positions of the compiled pattern for `w` in `s`, in the
order `exec` reports them. -/
def matchPositions (w s : Str) : List Nat := matchPosAux w s (s.length + 1) 0

/-- One vocabulary entry as used by the scan: the raw word, the
translation rendered inside the bubble, and the explanation shown in
the bubble tooltip. -/
structure TermEntry where
  word : Str
  translation : Str
  explanation : Str
deriving DecidableEq, Repr

/-- One match record built by `processTextNode`: the matched word, the
vocabulary entry it came from, the start and end offsets in the node
text and the matched text itself. -/
structure VMatch where
  word : Str
  data : TermEntry
  startPos : Nat
  endPos : Nat
  matchedText : Str
deriving DecidableEq, Repr

/-- The match record `processTextNode` pushes for an occurrence of the
entry `t` at offset `i` of the node text `s`: start offset, end offset
`index + match[0].length`, and the matched text `match[0]`. -/
def mkMatch (s : Str) (t : TermEntry) (i : Nat) : VMatch :=
  { word := t.word
    data := t
    startPos := i
    endPos := i + t.word.length
    matchedText := strSlice s i (i + t.word.length) }

/-- The match list `processTextNode` collects: for every vocabulary
entry, every whole-word case-insensitive occurrence in the node text. -/
def allMatches (terms : List TermEntry) (s : Str) : List VMatch :=
  terms.flatMap fun t => (matchPositions t.word s).map (mkMatch s t)

/-- The comparator `(a, b) => b.start - a.start`: descending start
offset. -/
def descStart (a b : VMatch) : Prop := b.startPos ≤ a.startPos

instance : DecidableRel descStart := fun a b => Nat.decLe b.startPos a.startPos

instance : IsTotal VMatch descStart :=
  ⟨fun a b => Nat.le_total b.startPos a.startPos⟩

instance : IsTrans VMatch descStart :=
  ⟨fun _ _ _ h1 h2 => Nat.le_trans h2 h1⟩

/-- `matches.sort((a, b) => b.start - a.start)`: sort matches by
descending start offset (rightmost first). -/
def sortMatchesDesc (ms : List VMatch) : List VMatch :=
  List.insertionSort descStart ms

/-- A node produced by the rewrite of a text node: either a plain text
node or a vocabulary bubble element.  `createVocabularyBubbleElement`
renders the entry's translation as the bubble's text content and keeps
the matched text and entry for the tooltip, so the bubble is determined
by the matched text and the entry. -/
inductive DomNode where
  | text (s : Str)
  | marker (matchedText : Str) (data : TermEntry)
deriving DecidableEq, Repr

/-- The loop body of `processAllMatches`: walking the (descending)
match list while keeping the fragment children (front of the list is
the first child) and the `lastIndex` cut point.  Each iteration inserts
at the front, in order: the trailing text `[match.end, lastIndex)` (if
non-empty), the bubble element, and the matched text
`[match.start, match.end)`; then `lastIndex` becomes `match.start`. -/
def processMatchesAux (s : Str) : List VMatch → List DomNode → Nat → List DomNode × Nat
  | [], frag, lastIndex => (frag, lastIndex)
  | m :: ms, frag, lastIndex =>
    let afterText := jsSubstring s m.endPos lastIndex
    let frag1 := if afterText.isEmpty then frag else DomNode.text afterText :: frag
    let frag2 := DomNode.marker m.matchedText m.data :: frag1
    let beforeText := jsSubstring s m.startPos m.endPos
    processMatchesAux s ms (DomNode.text beforeText :: frag2) m.startPos

/-- `processAllMatches`: rewrite the text `s` of one node, given its
match list sorted by descending start offset, into the replacement
children; after the loop the remaining leading text `[0, lastIndex)` is
put first when non-empty. -/
def processAllMatches (s : Str) (ms : List VMatch) : List DomNode :=
  let r := processMatchesAux s ms [] s.length
  if 0 < r.2 then DomNode.text (jsSubstring s 0 r.2) :: r.1 else r.1

/-- `processTextNode`: collect all matches for the node text; when at
least one exists, sort them rightmost-first and rewrite, otherwise the
node is left untouched. -/
def processTextNode (terms : List TermEntry) (s : Str) : List DomNode :=
  let found := allMatches terms s
  if 0 < found.length then processAllMatches s (sortMatchesDesc found)
  else [DomNode.text s]

/-- The content-length part of `shouldProcessTextNode`: the trimmed
text length must lie in `[3, 500]`.  The remaining checks (excluded
parent tags, UI-chrome class keywords, pre-existing bubbles in the
parent, computed visibility) are fixed properties of the eligible
parent element the flat document model represents. -/
def shouldProcessTextNode (s : Str) : Bool :=
  !(decide ((jsTrim s).length < 3) || decide (500 < (jsTrim s).length))

/-- One step of `scanTextNodes` on a collected node: text nodes passing
the filter are rewritten, everything else is left in place. -/
def rewriteNode (terms : List TermEntry) : DomNode → List DomNode
  | DomNode.text s =>
    if shouldProcessTextNode s then processTextNode terms s else [DomNode.text s]
  | n => [n]

/-- `clearVocabularyBubbles`: remove every vocabulary bubble element,
leaving the surrounding text nodes (unmerged) in place. -/
def clearVocabularyBubbles (doc : List DomNode) : List DomNode :=
  doc.filter fun n =>
    match n with
    | DomNode.marker _ _ => false
    | _ => true

/-- `scanPageForVocabulary` restricted to one eligible parent: clear
all existing vocabulary bubbles, then collect the remaining text nodes
and rewrite each one. -/
def scanDoc (terms : List TermEntry) (doc : List DomNode) : List DomNode :=
  (clearVocabularyBubbles doc).flatMap (rewriteNode terms)

/-- Concatenated plain text of a node list, with the marker labels
stripped. -/
def textConcat (doc : List DomNode) : Str :=
  doc.flatMap fun n =>
    match n with
    | DomNode.text s => s
    | DomNode.marker _ _ => []

/-- Number of marker nodes in a node list. -/
def countMarkers (doc : List DomNode) : Nat :=
  doc.countP fun n =>
    match n with
    | DomNode.marker _ _ => true
    | _ => false

/-- Two match spans are disjoint (neither overlaps nor nests into the
other). -/
def spanDisjoint (a b : VMatch) : Prop :=
  a.endPos ≤ b.startPos ∨ b.endPos ≤ a.startPos

instance : DecidableRel spanDisjoint := fun _ _ => instDecidableOr

/-- Specification-side description of the node list the
`processAllMatches` loop assembles for a descending match list and an
initial cut point `last`: the nodes of the later (right) matches come
last, each match contributes its matched text, its bubble and the
trailing gap up to the previous cut point. -/
def buildNodes (s : Str) : List VMatch → Nat → List DomNode
  | [], _ => []
  | m :: ms, last =>
    buildNodes s ms m.startPos ++
      DomNode.text (strSlice s m.startPos m.endPos) ::
        DomNode.marker m.matchedText m.data ::
          (if m.endPos < last then [DomNode.text (strSlice s m.endPos last)] else [])

/-- The final value of the loop's `lastIndex`: the start offset of the
last processed (leftmost) match, or the initial cut point when there is
no match. -/
def finalCut : List VMatch → Nat → Nat
  | [], last => last
  | m :: ms, _ => finalCut ms m.startPos

/-- A well-behaved vocabulary term for the amended idempotence claim:
a single word of word-class characters, at least 3 characters long. -/
def goodTerm (t : TermEntry) : Prop :=
  3 ≤ t.word.length ∧ t.word.all isWordChar = true

instance : DecidablePred goodTerm := fun _ => instDecidableAnd

/-- No two vocabulary entries share the same case-insensitive word. -/
def termsDistinctCI (terms : List TermEntry) : Prop :=
  terms.Pairwise fun a b => lowerStr a.word ≠ lowerStr b.word

instance (terms : List TermEntry) : Decidable (termsDistinctCI terms) :=
  haveI : DecidableRel fun a b : TermEntry =>
      lowerStr a.word ≠ lowerStr b.word :=
    fun _ _ => instDecidableNot
  List.instDecidablePairwise terms

/-!
### Selection gesture resolver

`SmartSelectionTranslator` keeps `isListening`, `isReady`,
`lastSelection` and a single delayed-activation timer of 200 ms.  The
combinations the code reaches are modelled as three states:
`idle` (`isListening = false`, no snapshot), `listening`
(`isListening = true`, `isReady = false`, timer armed) and `ready`
(`isListening = true`, `isReady = true`).  A snapshot captures the
trimmed selection text; each capture clones a fresh range object,
modelled by a capture identifier drawn from a counter.  Event payloads
carry the already-trimmed text of the live selection
(`selection.toString().trim()`). -/

/-- The selection snapshot `lastSelection`: trimmed text plus the
identity of the cloned range/rect capture. -/
structure Snapshot where
  text : String
  id : Nat
deriving DecidableEq, Repr

/-- The reachable combinations of `isListening`/`isReady`/
`lastSelection`. -/
inductive GState where
  | idle
  | listening (snap : Snapshot)
  | ready (snap : Snapshot)
deriving DecidableEq, Repr

/-- Resolver state: gesture state plus the counter supplying fresh
capture identities. -/
structure Resolver where
  st : GState
  nextId : Nat
deriving DecidableEq, Repr

/-- `handleDoubleClick`: when the trimmed selection text is non-empty
and shorter than 50 characters, reset any previous gesture, capture a
fresh snapshot and arm the delay timer (state `listening`); otherwise
do nothing. -/
def handleDoubleClick (r : Resolver) (selectedText : String) : Resolver :=
  if 0 < selectedText.length ∧ selectedText.length < 50 then
    { st := GState.listening ⟨selectedText, r.nextId⟩, nextId := r.nextId + 1 }
  else r

/-- The delay-timer callback armed by `handleDoubleClick`: the timer
only exists while the machine is in `listening`.  At expiry, if the
live selection still equals the snapshot text the machine becomes
`ready`, otherwise it resets to `idle`. -/
def handleTimerFire (r : Resolver) (currentText : String) : Resolver :=
  match r.st with
  | GState.listening snap =>
    if currentText = snap.text then { r with st := GState.ready snap }
    else { r with st := GState.idle }
  | _ => r

/-- `handleSelectionChange`: ignored unless `isListening`; a live
selection whose trimmed text differs from the snapshot resets the
machine to `idle` (cancelling the timer). -/
def handleSelectionChange (r : Resolver) (currentText : String) : Resolver :=
  match r.st with
  | GState.idle => r
  | GState.listening snap =>
    if currentText = snap.text then r else { r with st := GState.idle }
  | GState.ready snap =>
    if currentText = snap.text then r else { r with st := GState.idle }

/-- `handleSingleClick`: only acts in `ready`.  When the selection
still matches, an element was resolved under the click point and it
contains the selection anchor, the lookup activation for the snapshot
is emitted (`showTranslationBubble`); in every case the machine resets
to `idle`. -/
def handleSingleClick (r : Resolver) (currentText : String)
    (elementFound containsSel : Bool) : Resolver × List Snapshot :=
  match r.st with
  | GState.ready snap =>
    if currentText ≠ snap.text then ({ r with st := GState.idle }, [])
    else if !elementFound then ({ r with st := GState.idle }, [])
    else if containsSel then ({ r with st := GState.idle }, [snap])
    else ({ r with st := GState.idle }, [])
  | _ => (r, [])

/-- The document events the resolver reacts to, each carrying the
trimmed text of the live selection at that moment. -/
inductive GEvent where
  | dblclick (text : String)
  | selchange (text : String)
  | timer (text : String)
  | click (text : String) (elementFound containsSel : Bool)
deriving DecidableEq, Repr

/-- One event step of the resolver, returning the emitted
lookup-activation snapshots. -/
def stepResolver (r : Resolver) : GEvent → Resolver × List Snapshot
  | GEvent.dblclick t => (handleDoubleClick r t, [])
  | GEvent.selchange t => (handleSelectionChange r t, [])
  | GEvent.timer t => (handleTimerFire r t, [])
  | GEvent.click t ef cs => handleSingleClick r t ef cs

/-- Run the resolver over an event trace, collecting every emitted
lookup activation. -/
def runResolver (r : Resolver) : List GEvent → Resolver × List Snapshot
  | [] => (r, [])
  | e :: es =>
    let p := stepResolver r e
    let q := runResolver p.1 es
    (q.1, p.2 ++ q.2)

/-- The snapshot currently held by a gesture state, if any. -/
def snapOf : GState → Option Snapshot
  | GState.idle => none
  | GState.listening snap => some snap
  | GState.ready snap => some snap

/-!
### Vocabulary persistence (`saveTranslation`)
-/

/-- One stored vocabulary entry. -/
structure VEntry where
  word : String
  translation : String
  phonetic : String
  context : String
  explanation : String
  timestamp : Nat
deriving DecidableEq, Repr

/-- `toLowerCase` on a `String`, via the ASCII character map. -/
def lowerString (s : String) : String := ⟨lowerStr s.toList⟩

/-- The update `saveTranslation` performs on an existing entry: take
the new translation and timestamp, and keep each of phonetic,
explanation and context when the incoming field is empty (JavaScript
`||` on strings). -/
def mergeEntry (existing data : VEntry) : VEntry :=
  { existing with
    translation := data.translation
    phonetic := if data.phonetic = "" then existing.phonetic else data.phonetic
    explanation := if data.explanation = "" then existing.explanation else data.explanation
    context := if data.context = "" then existing.context else data.context
    timestamp := data.timestamp }

/-- Replace the first entry whose word equals `data.word`
case-insensitively (the `findIndex` + in-place update of
`saveTranslation`); `none` when no such entry exists. -/
def updateFirst (data : VEntry) : List VEntry → Option (List VEntry)
  | [] => none
  | e :: rest =>
    if lowerString e.word = lowerString data.word then
      some (mergeEntry e data :: rest)
    else (updateFirst data rest).map (e :: ·)

/-- `saveTranslation`: update the existing case-insensitive entry in
place, or prepend the new entry (`unshift`) when none exists. -/
def saveTranslation (data : VEntry) (vocabulary : List VEntry) : List VEntry :=
  match updateFirst data vocabulary with
  | some v => v
  | none => data :: vocabulary

/-- The vocabulary is duplicate-free when keyed by case-insensitive
word. -/
def dupFreeCI (vocabulary : List VEntry) : Prop :=
  vocabulary.Pairwise fun a b => lowerString a.word ≠ lowerString b.word

instance (vocabulary : List VEntry) : Decidable (dupFreeCI vocabulary) :=
  haveI : DecidableRel fun a b : VEntry =>
      lowerString a.word ≠ lowerString b.word :=
    fun _ _ => instDecidableNot
  List.instDecidablePairwise vocabulary

/-- The vocabulary is ordered most-recent-first: each entry's timestamp
is at least every later entry's. -/
def mostRecentFirst (vocabulary : List VEntry) : Prop :=
  vocabulary.Pairwise fun a b => b.timestamp ≤ a.timestamp

instance (vocabulary : List VEntry) : Decidable (mostRecentFirst vocabulary) :=
  haveI : DecidableRel fun a b : VEntry => b.timestamp ≤ a.timestamp :=
    fun a b => Nat.decLe b.timestamp a.timestamp
  List.instDecidablePairwise vocabulary

/-!
### Lookup failure path (`handleTranslation` / `translateText`)
-/

/-- The reply `background.js` sends back to the content script. -/
inductive BackgroundReply where
  | ok (data : VEntry)
  | err (message : String)
deriving DecidableEq, Repr

/-- The error string `handleTranslation` responds with when
`deepseek_api_key` is unset. -/
def missingKeyError : String := "API密钥未设置"

/-- The credential gate at the top of `handleTranslation`: with no
stored API key (absent or empty, both falsy), the request fails with
`missingKeyError` before any network call. -/
def handleTranslationKeyGate (apiKey : Option String) : Option String :=
  match apiKey with
  | none => some missingKeyError
  | some k => if k = "" then some missingKeyError else none

/-- `String.prototype.includes(sub)`: some slice of `s` equals `sub`. -/
def jsIncludes (s sub : String) : Bool :=
  (List.range (s.toList.length + 1)).any fun i =>
    (s.toList.drop i).take sub.toList.length == sub.toList

/-- `getErrorMessage` in the content script: map the error text to the
inline message shown on the bubble, by substring tests. -/
def getErrorMessage (msg : String) : String :=
  if jsIncludes msg "API key" then "请配置API密钥"
  else if jsIncludes msg "network" then "网络连接失败"
  else if jsIncludes msg "server" then "服务器错误"
  else "翻译失败"

/-- Outcome of one `translateText` run on a bubble: the inline bubble
message, the bubble state class, and whether `saveTranslation` wrote to
the vocabulary store. -/
structure LookupOutcome where
  bubbleMessage : String
  bubbleState : String
  savedToVocabulary : Bool
deriving DecidableEq, Repr

/-- `translateText` after the background reply arrives: a success shows
the translation and saves it to the vocabulary; an error shows
`getErrorMessage` on the bubble and performs no vocabulary write. -/
def translateTextOutcome (reply : BackgroundReply) : LookupOutcome :=
  match reply with
  | BackgroundReply.ok d => ⟨d.translation, "success", true⟩
  | BackgroundReply.err m => ⟨getErrorMessage m, "error", false⟩

/-- The whole no-credential lookup path: the background gate rejects
with `missingKeyError` and the content script renders the resulting
error reply. -/
def lookupWithApiKey (apiKey : Option String) (remote : BackgroundReply) : LookupOutcome :=
  match handleTranslationKeyGate apiKey with
  | some e => translateTextOutcome (BackgroundReply.err e)
  | none => translateTextOutcome remote

/-!
### Bubble registry (`removeBubble`)
-/

/-- The bubble bookkeeping of the content script: `bubbles` is the
`Map` of ephemeral translation bubbles keyed by their generated id
(insertion-ordered, unique keys); the vocabulary bubbles are the
persistent `.vocabulary-bubble` elements in the document. -/
structure PageBubbles where
  translationBubbles : List (String × Snapshot)
  vocabularyBubbles : List DomNode
deriving DecidableEq, Repr

/-- `removeBubble(id | none)`: with an id, delete that entry from the
ephemeral-bubble map and remove its element; with no id, remove every
ephemeral bubble and clear the map.  Vocabulary bubbles are not
consulted. -/
def removeBubble (pb : PageBubbles) : Option String → PageBubbles
  | some id =>
    { pb with
      translationBubbles := pb.translationBubbles.eraseP fun p => p.1 == id }
  | none => { pb with translationBubbles := [] }

/-!
### Lemmas about the gesture resolver
-/

/-- One resolver step preserves: the tracked snapshot id stays below
the fresh-id counter, no snapshot with that id is held, and no snapshot
with that id is emitted. -/
lemma stepResolver_no_stale (snap : Snapshot) (st : GState) (nid : Nat) (e : GEvent)
    (hid : snap.id < nid)
    (hsnap : ∀ s, snapOf st = some s → s.id ≠ snap.id) :
    snap.id < (stepResolver ⟨st, nid⟩ e).1.nextId ∧
      (∀ s, snapOf (stepResolver ⟨st, nid⟩ e).1.st = some s → s.id ≠ snap.id) ∧
      snap ∉ (stepResolver ⟨st, nid⟩ e).2 := by
  have hfresh : ∀ t : String,
      ∀ s, snapOf (GState.listening ⟨t, nid⟩) = some s → s.id ≠ snap.id := by
    intro t s hs
    rw [show snapOf (GState.listening ⟨t, nid⟩) = some ⟨t, nid⟩ from rfl,
      Option.some_inj] at hs
    subst hs
    exact fun h => absurd (h ▸ hid) (Nat.lt_irrefl _)
  cases e with
  | dblclick t =>
    dsimp only [stepResolver, handleDoubleClick]
    split_ifs with hc
    · exact ⟨Nat.lt_succ_of_lt hid, hfresh t, by simp⟩
    · exact ⟨hid, hsnap, by simp⟩
  | selchange t =>
    cases st with
    | idle => exact ⟨hid, hsnap, by simp [stepResolver, handleSelectionChange]⟩
    | listening s0 =>
      dsimp only [stepResolver, handleSelectionChange]
      split_ifs with hc
      · exact ⟨hid, hsnap, by simp⟩
      · exact ⟨hid, by intro s hs; exact absurd hs (by simp [snapOf]), by simp⟩
    | ready s0 =>
      dsimp only [stepResolver, handleSelectionChange]
      split_ifs with hc
      · exact ⟨hid, hsnap, by simp⟩
      · exact ⟨hid, by intro s hs; exact absurd hs (by simp [snapOf]), by simp⟩
  | timer t =>
    cases st with
    | idle => exact ⟨hid, hsnap, by simp [stepResolver, handleTimerFire]⟩
    | listening s0 =>
      dsimp only [stepResolver, handleTimerFire]
      split_ifs with hc
      · exact ⟨hid, by intro s hs; exact hsnap s hs, by simp⟩
      · exact ⟨hid, by intro s hs; exact absurd hs (by simp [snapOf]), by simp⟩
    | ready s0 => exact ⟨hid, hsnap, by simp [stepResolver, handleTimerFire]⟩
  | click t ef cs =>
    cases st with
    | idle => exact ⟨hid, hsnap, by simp [stepResolver, handleSingleClick]⟩
    | listening s0 => exact ⟨hid, hsnap, by simp [stepResolver, handleSingleClick]⟩
    | ready s0 =>
      have hs0 : s0.id ≠ snap.id := hsnap s0 rfl
      have hne : snap ∉ [s0] := by
        simp only [List.mem_singleton]
        exact fun h => hs0 (h ▸ rfl)
      have hidle : ∀ s, snapOf GState.idle = some s → s.id ≠ snap.id := by
        intro s hs
        exact absurd hs (by simp [snapOf])
      dsimp only [stepResolver, handleSingleClick]
      split_ifs with h1 h2 h3
      · exact ⟨hid, hidle, by simp⟩
      · exact ⟨hid, hidle, by simp⟩
      · exact ⟨hid, hidle, hne⟩
      · exact ⟨hid, hidle, by simp⟩

/-- As long as the fresh-id counter is above a snapshot's id and the
machine does not currently hold a snapshot with that id, no run of the
resolver ever emits that snapshot. -/
lemma runResolver_no_stale (snap : Snapshot) :
    ∀ (es : List GEvent) (r : Resolver), snap.id < r.nextId →
      (∀ s, snapOf r.st = some s → s.id ≠ snap.id) →
      snap ∉ (runResolver r es).2 := by
  intro es
  induction es with
  | nil => intro r _ _; simp [runResolver]
  | cons e es ih =>
    intro r hid hsnap
    obtain ⟨st, nid⟩ := r
    have h := stepResolver_no_stale snap st nid e hid hsnap
    simp only [runResolver, List.mem_append]
    push_neg
    exact ⟨h.2.2, ih (stepResolver ⟨st, nid⟩ e).1 h.1 h.2.1⟩

/-!
### Claim theorems
-/

/-- C1: for the vocabulary `[{word: "ephemeral", translation: "短暂的"}]`
and a processable text node `"the effect was ephemeral and brief"`, the
scan rewrites the node into exactly one marker covering the matched
substring `"ephemeral"` (the matched text followed immediately by its
bubble), with `"the effect was "` and `" and brief"` remaining as plain
text fragments adjacent to that marker group, in original document
order. -/
theorem c1_scan_single_ephemeral_match :
    scanDoc [⟨"ephemeral".toList, "短暂的".toList, [] ⟩]
        [DomNode.text "the effect was ephemeral and brief".toList] =
      [DomNode.text "the effect was ".toList,
       DomNode.text "ephemeral".toList,
       DomNode.marker "ephemeral".toList ⟨"ephemeral".toList, "短暂的".toList, [] ⟩,
       DomNode.text " and brief".toList] ∧
    countMarkers (scanDoc [⟨"ephemeral".toList, "短暂的".toList, [] ⟩]
        [DomNode.text "the effect was ephemeral and brief".toList]) = 1 := by
  constructor
  · decide
  · decide

/-- C3: a double-click in `Idle` with trimmed selection text of length
`L` captures a snapshot and moves to `Listening` when `1 ≤ L < 50`, and
leaves the machine in `Idle` with no snapshot when `L = 0` or
`L ≥ 50`. -/
theorem c3_double_click_from_idle (nid : Nat) (t : String) :
    ((1 ≤ t.length ∧ t.length < 50) →
      handleDoubleClick ⟨GState.idle, nid⟩ t =
        ⟨GState.listening ⟨t, nid⟩, nid + 1⟩) ∧
    ((t.length = 0 ∨ 50 ≤ t.length) →
      handleDoubleClick ⟨GState.idle, nid⟩ t = ⟨GState.idle, nid⟩) := by
  constructor
  · intro h
    have h' : 0 < t.length ∧ t.length < 50 := ⟨h.1, h.2⟩
    simp [handleDoubleClick, h']
  · intro h
    have h' : ¬(0 < t.length ∧ t.length < 50) := by omega
    simp [handleDoubleClick, h']

theorem c3_double_click_from_idle_witness :
    handleDoubleClick ⟨GState.idle, 0⟩ "hello" =
        ⟨GState.listening ⟨"hello", 0⟩, 1⟩ ∧
      handleDoubleClick ⟨GState.idle, 0⟩ "" = ⟨GState.idle, 0⟩ :=
  ⟨(c3_double_click_from_idle 0 "hello").1 (by decide),
   (c3_double_click_from_idle 0 "").2 (Or.inl rfl)⟩

/-- C4: while a snapshot is live in `Listening` (before the delay timer
fires), a selection-change event whose trimmed text differs from the
snapshot immediately forces `Idle`, and the stale snapshot is never
emitted as a lookup activation in any continuation of the trace. -/
theorem c4_stale_selection_forces_idle (snap : Snapshot) (nid : Nat)
    (t : String) (rest : List GEvent)
    (hid : snap.id < nid) (ht : t ≠ snap.text) :
    (handleSelectionChange ⟨GState.listening snap, nid⟩ t).st = GState.idle ∧
    snap ∉ (runResolver ⟨GState.listening snap, nid⟩
        (GEvent.selchange t :: rest)).2 := by
  have hstep :
      handleSelectionChange ⟨GState.listening snap, nid⟩ t =
        ⟨GState.idle, nid⟩ := by
    simp [handleSelectionChange, ht]
  refine ⟨by rw [hstep], ?_⟩
  have hrun :
      runResolver ⟨GState.listening snap, nid⟩ (GEvent.selchange t :: rest) =
        (let q := runResolver ⟨GState.idle, nid⟩ rest; (q.1, [] ++ q.2)) := by
    simp [runResolver, stepResolver, hstep]
  rw [hrun]
  simpa using
    runResolver_no_stale snap rest ⟨GState.idle, nid⟩ hid
      (by intro s hs; simp [snapOf] at hs)

theorem c4_stale_selection_forces_idle_witness :
    (handleSelectionChange ⟨GState.listening ⟨"word", 0⟩, 1⟩ "words").st =
        GState.idle ∧
      ⟨"word", 0⟩ ∉ (runResolver ⟨GState.listening ⟨"word", 0⟩, 1⟩
        [GEvent.selchange "words", GEvent.dblclick "word",
         GEvent.timer "word", GEvent.click "word" true true]).2 :=
  c4_stale_selection_forces_idle ⟨"word", 0⟩ 1 "words"
    [GEvent.dblclick "word", GEvent.timer "word", GEvent.click "word" true true]
    (by decide) (by decide)

/-- `updateFirst` returns `none` exactly when no entry matches
case-insensitively. -/
lemma updateFirst_eq_none (data : VEntry) :
    ∀ vocab : List VEntry, updateFirst data vocab = none ↔
      ∀ e ∈ vocab, lowerString e.word ≠ lowerString data.word := by
  intro vocab
  induction vocab with
  | nil => simp [updateFirst]
  | cons e rest ih =>
    by_cases h : lowerString e.word = lowerString data.word
    · simp [updateFirst, h]
    · simp only [updateFirst, if_neg h, Option.map_eq_none', ih,
        List.mem_cons, forall_eq_or_imp]
      simp only [ne_eq, h, not_false_eq_true, true_and]

/-- `updateFirst` success: the result replaces the first
case-insensitive match (at its original index) by the merged entry. -/
lemma updateFirst_eq_some (data : VEntry) :
    ∀ (vocab v : List VEntry), updateFirst data vocab = some v →
      ∃ i e, vocab[i]? = some e ∧
        lowerString e.word = lowerString data.word ∧
        v = vocab.set i (mergeEntry e data) := by
  intro vocab
  induction vocab with
  | nil => intro v h; simp [updateFirst] at h
  | cons e rest ih =>
    intro v h
    by_cases hw : lowerString e.word = lowerString data.word
    · rw [updateFirst, if_pos hw, Option.some_inj] at h
      exact ⟨0, e, by simp, hw, h.symm⟩
    · rw [updateFirst, if_neg hw, Option.map_eq_some'] at h
      obtain ⟨v', hv', hv⟩ := h
      subst hv
      obtain ⟨i, e', hget, hcw, rfl⟩ := ih v' hv'
      exact ⟨i + 1, e', by simpa using hget, hcw, by simp⟩

/-- `updateFirst` leaves the lower-cased word of every entry unchanged
(the merge keeps the stored word's original casing). -/
lemma updateFirst_map_word (data : VEntry) :
    ∀ (vocab v : List VEntry), updateFirst data vocab = some v →
      v.map (fun e => lowerString e.word) =
        vocab.map (fun e => lowerString e.word) := by
  intro vocab
  induction vocab with
  | nil => intro v h; simp [updateFirst] at h
  | cons e rest ih =>
    intro v h
    by_cases hw : lowerString e.word = lowerString data.word
    · rw [updateFirst, if_pos hw, Option.some_inj] at h
      subst h
      simp [mergeEntry]
    · rw [updateFirst, if_neg hw, Option.map_eq_some'] at h
      obtain ⟨v', hv', hv⟩ := h
      subst hv
      simp [ih v' hv']

/-- C6: when the vocabulary already holds an entry whose word equals
the new result's word case-insensitively, `saveTranslation` updates
that single entry in place: the entry count is unchanged and the result
is the old list with the first matching index replaced by the merged
entry (no duplicate inserted). -/
theorem c6_save_updates_in_place (data : VEntry) (vocab : List VEntry)
    (h : ∃ e ∈ vocab, lowerString e.word = lowerString data.word) :
    (saveTranslation data vocab).length = vocab.length ∧
    ∃ i e, vocab[i]? = some e ∧
      lowerString e.word = lowerString data.word ∧
      saveTranslation data vocab = vocab.set i (mergeEntry e data) := by
  obtain ⟨e0, he0, hw0⟩ := h
  cases hu : updateFirst data vocab with
  | none =>
    exact absurd hw0 ((updateFirst_eq_none data vocab).mp hu e0 he0)
  | some v =>
    obtain ⟨i, e, hget, hcw, rfl⟩ := updateFirst_eq_some data vocab v hu
    refine ⟨?_, i, e, hget, hcw, ?_⟩
    · simp [saveTranslation, hu]
    · simp [saveTranslation, hu]

theorem c6_save_updates_in_place_witness :
    (saveTranslation ⟨"CAT", "n.猫", "", "", "", 200⟩
        [⟨"dog", "狗", "", "", "", 100⟩, ⟨"Cat", "猫", "", "", "", 50⟩]).length = 2 ∧
    ∃ i e,
      ([⟨"dog", "狗", "", "", "", 100⟩, ⟨"Cat", "猫", "", "", "", 50⟩] :
          List VEntry)[i]? = some e ∧
      lowerString e.word = lowerString "CAT" ∧
      saveTranslation ⟨"CAT", "n.猫", "", "", "", 200⟩
          [⟨"dog", "狗", "", "", "", 100⟩, ⟨"Cat", "猫", "", "", "", 50⟩] =
        ([⟨"dog", "狗", "", "", "", 100⟩, ⟨"Cat", "猫", "", "", "", 50⟩] :
          List VEntry).set i (mergeEntry e ⟨"CAT", "n.猫", "", "", "", 200⟩) :=
  c6_save_updates_in_place ⟨"CAT", "n.猫", "", "", "", 200⟩
    [⟨"dog", "狗", "", "", "", 100⟩, ⟨"Cat", "猫", "", "", "", 50⟩]
    ⟨⟨"Cat", "猫", "", "", "", 50⟩, by decide, by decide⟩

/-- C7 counterexample: updating an existing entry keeps it at its old
position while giving it the newest timestamp, so the stored sequence
is not most-recent-first afterwards. -/
theorem c7_counterexample_not_most_recent_first :
    ¬ mostRecentFirst (saveTranslation ⟨"CAT", "n.猫", "", "", "", 200⟩
        [⟨"dog", "狗", "", "", "", 100⟩, ⟨"Cat", "猫", "", "", "", 50⟩]) := by
  decide

/-- C7 (amended): `saveTranslation` preserves case-insensitive
duplicate-freedom, and a genuinely new word is inserted at the front of
the sequence; an update of an existing word keeps the entry at its old
position, so the sequence is not in general ordered by newest timestamp
first. -/
theorem c7_amended_dup_free_and_new_word_first (data : VEntry)
    (vocab : List VEntry) (h : dupFreeCI vocab) :
    dupFreeCI (saveTranslation data vocab) ∧
    ((∀ e ∈ vocab, lowerString e.word ≠ lowerString data.word) →
      saveTranslation data vocab = data :: vocab) := by
  constructor
  · cases hu : updateFirst data vocab with
    | none =>
      have hnew := (updateFirst_eq_none data vocab).mp hu
      rw [saveTranslation, hu]
      exact List.Pairwise.cons (fun e he => fun hq => hnew e he hq.symm) h
    | some v =>
      have hsv : saveTranslation data vocab = v := by
        rw [saveTranslation, hu]
      rw [hsv]
      have hmap := updateFirst_map_word data vocab v hu
      have hiff : ∀ l : List VEntry, dupFreeCI l ↔
          (l.map fun e => lowerString e.word).Pairwise (· ≠ ·) := by
        intro l
        rw [dupFreeCI, List.pairwise_map]
      rw [hiff] at h ⊢
      rw [hmap]
      exact h
  · intro hnone
    rw [saveTranslation, (updateFirst_eq_none data vocab).mpr hnone]

theorem c7_amended_dup_free_and_new_word_first_witness :
    dupFreeCI (saveTranslation ⟨"CAT", "n.猫", "", "", "", 200⟩
        [⟨"dog", "狗", "", "", "", 100⟩, ⟨"Cat", "猫", "", "", "", 50⟩]) ∧
    ((∀ e ∈ ([⟨"dog", "狗", "", "", "", 100⟩, ⟨"Cat", "猫", "", "", "", 50⟩] :
        List VEntry), lowerString e.word ≠ lowerString "CAT") →
      saveTranslation ⟨"CAT", "n.猫", "", "", "", 200⟩
          [⟨"dog", "狗", "", "", "", 100⟩, ⟨"Cat", "猫", "", "", "", 50⟩] =
        ⟨"CAT", "n.猫", "", "", "", 200⟩ ::
          [⟨"dog", "狗", "", "", "", 100⟩, ⟨"Cat", "猫", "", "", "", 50⟩]) :=
  c7_amended_dup_free_and_new_word_first ⟨"CAT", "n.猫", "", "", "", 200⟩
    [⟨"dog", "狗", "", "", "", 100⟩, ⟨"Cat", "猫", "", "", "", 50⟩]
    (by decide)

/-- C8 (code-bug evidence): with no API key configured, the background
gate fails before any network call and the content script writes
nothing to the vocabulary; but the inline message shown on the bubble
is the generic `"翻译失败"`, not the dedicated missing-credential
message `"请配置API密钥"`, because `getErrorMessage` tests the error
text for the substring `"API key"` while the background error is
`"API密钥未设置"`. -/
theorem c8_missing_key_generic_message_no_write :
    (∀ remote : BackgroundReply,
      lookupWithApiKey none remote =
        ⟨"翻译失败", "error", false⟩ ∧
      lookupWithApiKey (some "") remote =
        ⟨"翻译失败", "error", false⟩) ∧
    getErrorMessage missingKeyError ≠ "请配置API密钥" := by
  have hmsg : getErrorMessage missingKeyError = "翻译失败" := by decide
  refine ⟨?_, by decide⟩
  intro remote
  constructor
  · show translateTextOutcome (BackgroundReply.err missingKeyError) = _
    rw [translateTextOutcome, hmsg]
  · show translateTextOutcome (BackgroundReply.err missingKeyError) = _
    rw [translateTextOutcome, hmsg]

/-- When the keys of an association list are distinct, erasing the
first entry with a given key equals filtering that key out entirely. -/
lemma eraseP_eq_filter_of_nodup_keys (id : String) :
    ∀ l : List (String × Snapshot), (l.map Prod.fst).Nodup →
      l.eraseP (fun p => p.1 == id) = l.filter (fun p => p.1 != id) := by
  intro l
  induction l with
  | nil => intro _; rfl
  | cons p rest ih =>
    intro hnd
    rw [List.map_cons, List.nodup_cons] at hnd
    by_cases hp : p.1 = id
    · rw [List.eraseP_cons_of_pos (by simp [hp]),
        List.filter_cons_of_neg (by simp [hp])]
      rw [List.filter_eq_self.mpr]
      intro q hq
      simp only [bne_iff_ne, ne_eq]
      intro hq1
      apply hnd.1
      have hpq : p.1 = q.1 := by rw [hp, hq1]
      rw [hpq]
      exact List.mem_map_of_mem Prod.fst hq
    · rw [List.eraseP_cons_of_neg (by simp [hp]),
        List.filter_cons_of_pos (by simp [hp]), ih hnd.2]

/-- C9: `removeBubble` with an id removes exactly the single ephemeral
bubble carrying that id (the map's keys are unique); with no id it
removes all ephemeral bubbles; in both cases the persistent vocabulary
bubbles are untouched. -/
theorem c9_remove_bubble_frame (pb : PageBubbles) (id : String)
    (hkeys : (pb.translationBubbles.map Prod.fst).Nodup) :
    (removeBubble pb (some id)).vocabularyBubbles = pb.vocabularyBubbles ∧
    (removeBubble pb (some id)).translationBubbles =
      pb.translationBubbles.filter (fun p => p.1 != id) ∧
    (removeBubble pb none).vocabularyBubbles = pb.vocabularyBubbles ∧
    (removeBubble pb none).translationBubbles = [] :=
  ⟨rfl, eraseP_eq_filter_of_nodup_keys id pb.translationBubbles hkeys, rfl, rfl⟩

theorem c9_remove_bubble_frame_witness :
    (removeBubble ⟨[("b1", ⟨"cat", 0⟩), ("b2", ⟨"dog", 1⟩)], [DomNode.text []]⟩
        (some "b1")).vocabularyBubbles = [DomNode.text []] ∧
    (removeBubble ⟨[("b1", ⟨"cat", 0⟩), ("b2", ⟨"dog", 1⟩)], [DomNode.text []]⟩
        (some "b1")).translationBubbles =
      ([("b1", ⟨"cat", 0⟩), ("b2", ⟨"dog", 1⟩)] :
        List (String × Snapshot)).filter (fun p => p.1 != "b1") ∧
    (removeBubble ⟨[("b1", ⟨"cat", 0⟩), ("b2", ⟨"dog", 1⟩)], [DomNode.text []]⟩
        none).vocabularyBubbles = [DomNode.text []] ∧
    (removeBubble ⟨[("b1", ⟨"cat", 0⟩), ("b2", ⟨"dog", 1⟩)], [DomNode.text []]⟩
        none).translationBubbles = [] :=
  c9_remove_bubble_frame
    ⟨[("b1", ⟨"cat", 0⟩), ("b2", ⟨"dog", 1⟩)], [DomNode.text []]⟩ "b1"
    (by decide)

/-- C10: a text node accepted by the filter on which no term pattern
matches is left entirely unchanged by the scan: no replacement, split
or marker insertion happens. -/
theorem c10_no_match_leaves_node_unchanged (terms : List TermEntry) (s : Str)
    (h : allMatches terms s = []) :
    rewriteNode terms (DomNode.text s) = [DomNode.text s] := by
  rw [rewriteNode]
  split_ifs with hp
  · rw [processTextNode, h]
    rfl
  · rfl

theorem c10_no_match_leaves_node_unchanged_witness :
    rewriteNode [⟨"ephemeral".toList, "短暂的".toList, [] ⟩]
        (DomNode.text "nothing matches here".toList) =
      [DomNode.text "nothing matches here".toList] :=
  c10_no_match_leaves_node_unchanged
    [⟨"ephemeral".toList, "短暂的".toList, [] ⟩]
    "nothing matches here".toList (by decide)

/-!
### Slice, lower-casing and word-character lemmas
-/

lemma strSlice_length (s : Str) (a b : Nat) (hb : b ≤ s.length) :
    (strSlice s a b).length = b - a := by
  rw [strSlice, List.length_take, List.length_drop]
  omega

lemma strSlice_getElem? (s : Str) (a b i : Nat) (h : i < b - a) :
    (strSlice s a b)[i]? = s[a + i]? := by
  rw [strSlice, List.getElem?_take_of_lt h, List.getElem?_drop]

lemma strSlice_zero_length (s : Str) : strSlice s 0 s.length = s := by
  rw [strSlice, List.drop_zero, Nat.sub_zero, List.take_length]

lemma strSlice_of_ge (s : Str) (a b : Nat) (h : b ≤ a) : strSlice s a b = [] := by
  rw [strSlice, Nat.sub_eq_zero_of_le h, List.take_zero]

lemma strSlice_append (s : Str) (a b c : Nat) (hab : a ≤ b) (hbc : b ≤ c) :
    strSlice s a b ++ strSlice s b c = strSlice s a c := by
  rw [strSlice, strSlice, strSlice,
    show c - a = (b - a) + (c - b) by omega, List.take_add]
  congr 1
  rw [List.drop_drop, show a + (b - a) = b by omega]

lemma jsSubstring_of_le (s : Str) (a b : Nat) (hab : a ≤ b) (hb : b ≤ s.length) :
    jsSubstring s a b = strSlice s a b := by
  simp only [jsSubstring]
  congr 1 <;> omega

lemma lowerStr_length (x : Str) : (lowerStr x).length = x.length :=
  List.length_map x lowerChar

lemma toNat_lowerChar (c : Char) :
    (lowerChar c).toNat =
      if 65 ≤ c.toNat ∧ c.toNat ≤ 90 then c.toNat + 32 else c.toNat := by
  rw [lowerChar]
  split_ifs with h
  · have hv : (c.toNat + 32).isValidChar := Or.inl (by omega)
    rw [Char.ofNat, dif_pos hv]
    rfl
  · rfl

lemma isWordChar_lowerChar (c : Char) : isWordChar (lowerChar c) = isWordChar c := by
  rw [isWordChar, isWordChar, toNat_lowerChar]
  split_ifs with h
  · rw [decide_eq_decide]
    omega
  · rfl

lemma not_whitespace_of_isWordChar (c : Char) (h : isWordChar c = true) :
    c.isWhitespace = false := by
  rw [isWordChar, decide_eq_true_iff] at h
  have hws : c.isWhitespace = (c = ' ' || c = '\t' || c = '\r' || c = '\n') := rfl
  rw [hws]
  simp only [Bool.or_eq_false_iff, decide_eq_false_iff_not]
  refine ⟨⟨⟨fun hc => ?_, fun hc => ?_⟩, fun hc => ?_⟩, fun hc => ?_⟩ <;>
    · subst hc
      revert h
      decide

lemma wordAt_of_getElem? {s : Str} {i : Nat} {c : Char} (h : s[i]? = some c) :
    wordAt s i = isWordChar c := by
  rw [wordAt, h]

lemma wordAt_of_none {s : Str} {i : Nat} (h : s.length ≤ i) :
    wordAt s i = false := by
  rw [wordAt, List.getElem?_eq_none h]

lemma occursAt_iff (w s : Str) (i : Nat) :
    occursAt w s i = true ↔
      i + w.length ≤ s.length ∧
      lowerStr (strSlice s i (i + w.length)) = lowerStr w ∧
      boundaryAt s i = true ∧ boundaryAt s (i + w.length) = true := by
  rw [occursAt]
  simp only [Bool.and_eq_true, decide_eq_true_iff, beq_iff_eq]
  tauto

/-!
### Occurrence lemmas
-/

lemma bounds_of_occursAt {w s : Str} {i : Nat} (h : occursAt w s i = true) :
    i + w.length ≤ s.length :=
  ((occursAt_iff w s i).mp h).1

lemma lower_slice_of_occursAt {w s : Str} {i : Nat} (h : occursAt w s i = true) :
    lowerStr (strSlice s i (i + w.length)) = lowerStr w :=
  ((occursAt_iff w s i).mp h).2.1

/-- Every position inside an occurrence of a word-only term carries a
word character. -/
lemma wordAt_of_occursAt {w s : Str} {i : Nat} (hw : w.all isWordChar = true)
    (h : occursAt w s i = true) :
    ∀ k, i ≤ k → k < i + w.length → wordAt s k = true := by
  have hb := bounds_of_occursAt h
  have hlow := lower_slice_of_occursAt h
  intro k hk1 hk2
  have hj : k - i < w.length := by omega
  obtain ⟨cw, hcw⟩ : ∃ cw, w[k - i]? = some cw :=
    ⟨_, List.getElem?_eq_getElem hj⟩
  have hcwword : isWordChar cw = true :=
    List.all_eq_true.mp hw cw (List.getElem?_mem hcw)
  have hpt : (lowerStr (strSlice s i (i + w.length)))[k - i]? =
      (lowerStr w)[k - i]? := by rw [hlow]
  rw [lowerStr, lowerStr, List.getElem?_map, List.getElem?_map, hcw,
    strSlice_getElem? s i (i + w.length) (k - i) (by omega),
    show i + (k - i) = k by omega] at hpt
  obtain ⟨cs, hcs, hlc⟩ : ∃ cs, s[k]? = some cs ∧ lowerChar cs = lowerChar cw := by
    cases hsk : s[k]? with
    | none => rw [hsk] at hpt; exact absurd hpt (by simp)
    | some c =>
      rw [hsk] at hpt
      exact ⟨c, rfl, by simpa using hpt⟩
  rw [wordAt_of_getElem? hcs, ← isWordChar_lowerChar cs, hlc,
    isWordChar_lowerChar cw]
  exact hcwword

/-- The character just before an occurrence of a non-empty word-only
term (when it exists) and the character just after it are not word
characters. -/
lemma edges_of_occursAt {w s : Str} {i : Nat} (hw : w.all isWordChar = true)
    (hlen : 0 < w.length) (h : occursAt w s i = true) :
    (i = 0 ∨ wordAt s (i - 1) = false) ∧ wordAt s (i + w.length) = false := by
  have hspan := wordAt_of_occursAt hw h
  obtain ⟨hb, hlow, hb1, hb2⟩ := (occursAt_iff w s i).mp h
  constructor
  · by_cases hi : i = 0
    · exact Or.inl hi
    · right
      rw [boundaryAt, if_neg hi, hspan i (Nat.le_refl i) (by omega)] at hb1
      simpa using hb1
  · rw [boundaryAt, if_neg (by omega : ¬ i + w.length = 0),
      hspan (i + w.length - 1) (by omega) (by omega)] at hb2
    simpa using hb2

/-- Two overlapping occurrences of non-empty word-only terms cover
exactly the same span. -/
lemma occursAt_overlap_eq {w1 w2 s : Str} {i1 i2 : Nat}
    (hw1 : w1.all isWordChar = true) (hw2 : w2.all isWordChar = true)
    (hl1 : 0 < w1.length) (hl2 : 0 < w2.length)
    (h1 : occursAt w1 s i1 = true) (h2 : occursAt w2 s i2 = true)
    (hle : i1 ≤ i2) (hover : i2 < i1 + w1.length) :
    i1 = i2 ∧ i1 + w1.length = i2 + w2.length := by
  have hA1 := wordAt_of_occursAt hw1 h1
  have hA2 := wordAt_of_occursAt hw2 h2
  have hB1 := edges_of_occursAt hw1 hl1 h1
  have hB2 := edges_of_occursAt hw2 hl2 h2
  have hi : i1 = i2 := by
    by_contra hne
    have hwv : wordAt s (i2 - 1) = true := hA1 (i2 - 1) (by omega) (by omega)
    rcases hB2.1 with h0 | hf
    · omega
    · rw [hwv] at hf
      exact absurd hf (by simp)
  refine ⟨hi, ?_⟩
  subst hi
  by_contra hne
  rcases Nat.lt_or_ge (i1 + w1.length) (i1 + w2.length) with hlt | hge
  · have hwv : wordAt s (i1 + w1.length) = true := hA2 _ (by omega) (by omega)
    rw [hB1.2] at hwv
    exact absurd hwv (by simp)
  · have hwv : wordAt s (i1 + w2.length) = true := hA1 _ (by omega) (by omega)
    rw [hB2.2] at hwv
    exact absurd hwv (by simp)

/-!
### Lemmas about the `exec` loop and the collected match list
-/

lemma matchPosAux_sound (w s : Str) :
    ∀ (fuel i j : Nat), j ∈ matchPosAux w s fuel i →
      occursAt w s j = true ∧ i ≤ j := by
  intro fuel
  induction fuel with
  | zero => intro i j hj; simp [matchPosAux] at hj
  | succ fuel ih =>
    intro i j hj
    rw [matchPosAux] at hj
    split_ifs at hj with hc hocc
    · rcases List.mem_cons.mp hj with rfl | hj2
      · exact ⟨hocc, Nat.le_refl _⟩
      · obtain ⟨h1, h2⟩ := ih _ _ hj2
        exact ⟨h1, by omega⟩
    · obtain ⟨h1, h2⟩ := ih _ _ hj
      exact ⟨h1, by omega⟩
    · simp at hj

lemma matchPosAux_complete {w : Str} (hw : w.all isWordChar = true)
    (hlen : 0 < w.length) (s : Str) :
    ∀ (fuel i j : Nat), s.length < i + fuel →
      occursAt w s j = true → i ≤ j → j ∈ matchPosAux w s fuel i := by
  intro fuel
  induction fuel with
  | zero =>
    intro i j hfuel hocc hij
    have := bounds_of_occursAt hocc
    omega
  | succ fuel ih =>
    intro i j hfuel hocc hij
    have hjb := bounds_of_occursAt hocc
    rw [matchPosAux]
    split_ifs with hc hocc0
    · rcases Nat.eq_or_lt_of_le hij with rfl | hlt
      · exact List.mem_cons_self _ _
      · apply List.mem_cons_of_mem
        apply ih _ j (by omega) hocc
        by_contra hlt2
        push_neg at hlt2
        have := occursAt_overlap_eq hw hw hlen hlen hocc0 hocc (by omega) (by omega)
        omega
    · apply ih _ j (by omega) hocc
      rcases Nat.eq_or_lt_of_le hij with rfl | hlt
      · exact absurd hocc hocc0
      · omega
    · exfalso
      omega

lemma matchPosAux_pairwise (w s : Str) :
    ∀ (fuel i : Nat),
      (matchPosAux w s fuel i).Pairwise fun p q => p + w.length ≤ q := by
  intro fuel
  induction fuel with
  | zero => intro i; simp [matchPosAux]
  | succ fuel ih =>
    intro i
    rw [matchPosAux]
    split_ifs with hc hocc
    · refine List.Pairwise.cons ?_ (ih _)
      intro q hq
      exact (matchPosAux_sound w s fuel _ q hq).2
    · exact ih _
    · exact List.Pairwise.nil

lemma matchPosAux_eq_nil {w s : Str} (hno : ∀ j, occursAt w s j = false) :
    ∀ fuel i, matchPosAux w s fuel i = [] := by
  intro fuel
  induction fuel with
  | zero => intro i; rfl
  | succ fuel ih =>
    intro i
    rw [matchPosAux]
    split_ifs with hc hocc
    · rw [hno i] at hocc
      exact absurd hocc (by simp)
    · exact ih _
    · rfl

lemma mem_matchPositions {w : Str} (hw : w.all isWordChar = true)
    (hlen : 0 < w.length) (s : Str) (j : Nat) :
    j ∈ matchPositions w s ↔ occursAt w s j = true := by
  rw [matchPositions]
  constructor
  · intro h
    exact (matchPosAux_sound w s _ 0 j h).1
  · intro h
    exact matchPosAux_complete hw hlen s _ 0 j (by omega) h (Nat.zero_le j)

lemma allMatches_cons (t : TermEntry) (ts : List TermEntry) (s : Str) :
    allMatches (t :: ts) s =
      (matchPositions t.word s).map (mkMatch s t) ++ allMatches ts s := by
  rw [allMatches, allMatches, List.flatMap_cons]

lemma mem_allMatches_iff {terms : List TermEntry} {s : Str} {m : VMatch}
    (hterms : ∀ t ∈ terms, goodTerm t) :
    m ∈ allMatches terms s ↔
      ∃ t ∈ terms, ∃ j, occursAt t.word s j = true ∧ m = mkMatch s t j := by
  rw [allMatches, List.mem_flatMap]
  constructor
  · rintro ⟨t, ht, hm⟩
    rw [List.mem_map] at hm
    obtain ⟨j, hj, rfl⟩ := hm
    obtain ⟨h3, hword⟩ := hterms t ht
    exact ⟨t, ht, j, (mem_matchPositions hword (by omega) s j).mp hj, rfl⟩
  · rintro ⟨t, ht, j, hocc, rfl⟩
    obtain ⟨h3, hword⟩ := hterms t ht
    exact ⟨t, ht, List.mem_map.mpr
      ⟨j, (mem_matchPositions hword (by omega) s j).mpr hocc, rfl⟩⟩

lemma matchFacts_of_mem {terms : List TermEntry} {s : Str} {m : VMatch}
    (hterms : ∀ t ∈ terms, goodTerm t) (hm : m ∈ allMatches terms s) :
    m.startPos < m.endPos ∧ m.endPos ≤ s.length := by
  rw [mem_allMatches_iff hterms] at hm
  obtain ⟨t, ht, j, hocc, rfl⟩ := hm
  have hb := bounds_of_occursAt hocc
  obtain ⟨h3, _⟩ := hterms t ht
  exact ⟨by show j < j + t.word.length; omega,
    by show j + t.word.length ≤ s.length; exact hb⟩

/-- All matched spans of a good, case-insensitively distinct term set
are pairwise disjoint: occurrences of one term cannot overlap by the
`exec` skip, and occurrences of two distinct terms cannot overlap
because overlapping whole-word occurrences occupy the same span and
would force the two terms to agree case-insensitively. -/
lemma allMatches_pairwise_disjoint {terms : List TermEntry} {s : Str}
    (hterms : ∀ t ∈ terms, goodTerm t) (hdist : termsDistinctCI terms) :
    (allMatches terms s).Pairwise spanDisjoint := by
  induction terms with
  | nil => simp [allMatches]
  | cons t ts ih =>
    rw [allMatches_cons]
    rw [termsDistinctCI, List.pairwise_cons] at hdist
    have hterms' : ∀ t' ∈ ts, goodTerm t' :=
      fun t' ht' => hterms t' (List.mem_cons_of_mem t ht')
    obtain ⟨h3, hword⟩ := hterms t (List.mem_cons_self t ts)
    apply List.pairwise_append.mpr
    refine ⟨?_, ih hterms' hdist.2, ?_⟩
    · apply List.Pairwise.map (mkMatch s t)
        (fun p q (hpq : p + t.word.length ≤ q) => ?_)
        (matchPosAux_pairwise t.word s _ _)
      exact Or.inl hpq
    · intro a ha b hb
      rw [List.mem_map] at ha
      obtain ⟨j1, hj1, rfl⟩ := ha
      have hocc1 := (mem_matchPositions hword (by omega) s j1).mp hj1
      rw [mem_allMatches_iff hterms'] at hb
      obtain ⟨t', ht', j2, hocc2, rfl⟩ := hb
      obtain ⟨h3', hword'⟩ := hterms' t' ht'
      have hlowne : lowerStr t.word ≠ lowerStr t'.word := hdist.1 t' ht'
      by_contra hnd
      rw [spanDisjoint] at hnd
      push_neg at hnd
      obtain ⟨hnd1, hnd2⟩ := hnd
      have hnd1' : j2 < j1 + t.word.length := by
        simpa [mkMatch] using hnd1
      have hnd2' : j1 < j2 + t'.word.length := by
        simpa [mkMatch] using hnd2
      have hspans : j1 = j2 ∧ j1 + t.word.length = j2 + t'.word.length := by
        rcases Nat.le_total j1 j2 with hle | hle
        · exact occursAt_overlap_eq hword hword' (by omega) (by omega)
            hocc1 hocc2 hle hnd1'
        · have h := occursAt_overlap_eq hword' hword (by omega) (by omega)
            hocc2 hocc1 hle hnd2'
          omega
      apply hlowne
      have e1 := lower_slice_of_occursAt hocc1
      have e2 := lower_slice_of_occursAt hocc2
      rw [← e1, ← e2, hspans.1]
      rw [hspans.1] at hspans
      rw [hspans.2]

/-!
### Characterising the rewrite loop
-/

lemma processMatchesAux_cons (s : Str) (m : VMatch) (ms : List VMatch)
    (frag : List DomNode) (last : Nat) :
    processMatchesAux s (m :: ms) frag last =
      processMatchesAux s ms
        (DomNode.text (jsSubstring s m.startPos m.endPos) ::
          DomNode.marker m.matchedText m.data ::
            (if (jsSubstring s m.endPos last).isEmpty then frag
             else DomNode.text (jsSubstring s m.endPos last) :: frag))
        m.startPos := rfl

/-- For a descending, pairwise-disjoint, in-bounds match list the
`processAllMatches` loop produces exactly the `buildNodes`
decomposition, with the final cut point at the leftmost match start. -/
lemma processMatchesAux_eq_build (s : Str) :
    ∀ (ms : List VMatch) (frag : List DomNode) (last : Nat),
      (∀ m ∈ ms, m.startPos < m.endPos ∧ m.endPos ≤ s.length) →
      ms.Pairwise (fun a b => b.endPos ≤ a.startPos) →
      (∀ m ∈ ms, m.endPos ≤ last) →
      last ≤ s.length →
      processMatchesAux s ms frag last =
        (buildNodes s ms last ++ frag, finalCut ms last) := by
  intro ms
  induction ms with
  | nil =>
    intro frag last _ _ _ _
    simp [processMatchesAux, buildNodes, finalCut]
  | cons m ms ih =>
    intro frag last hb hp hl hsl
    have hmb := hb m (List.mem_cons_self m ms)
    have hml := hl m (List.mem_cons_self m ms)
    rw [List.pairwise_cons] at hp
    have hafter : jsSubstring s m.endPos last = strSlice s m.endPos last :=
      jsSubstring_of_le s _ _ hml hsl
    have hbefore : jsSubstring s m.startPos m.endPos =
        strSlice s m.startPos m.endPos :=
      jsSubstring_of_le s _ _ (Nat.le_of_lt hmb.1) hmb.2
    have hempty : (strSlice s m.endPos last).isEmpty = true ↔ ¬ m.endPos < last := by
      rw [List.isEmpty_iff_length_eq_zero, strSlice_length s _ _ hsl]
      omega
    rw [processMatchesAux_cons, ih _ m.startPos
      (fun m' hm' => hb m' (List.mem_cons_of_mem m hm'))
      hp.2
      (fun m' hm' => hp.1 m' hm')
      (by omega)]
    rw [buildNodes, finalCut]
    by_cases hel : m.endPos < last
    · have he : (strSlice s m.endPos last).isEmpty = false := by
        rw [Bool.eq_false_iff]
        intro hcontra
        exact absurd hel (hempty.mp hcontra)
      rw [hafter, hbefore, he, if_pos hel]
      simp
    · have he : (strSlice s m.endPos last).isEmpty = true := hempty.mpr hel
      rw [hafter, hbefore, he, if_neg hel]
      simp

lemma textConcat_append (l1 l2 : List DomNode) :
    textConcat (l1 ++ l2) = textConcat l1 ++ textConcat l2 := by
  rw [textConcat, textConcat, textConcat, List.flatMap_append]

lemma finalCut_le : ∀ (ms : List VMatch) (last : Nat),
    (∀ m ∈ ms, m.startPos ≤ last) →
    (ms.Pairwise fun a b => b.endPos ≤ a.startPos) →
    (∀ m ∈ ms, m.startPos < m.endPos) →
    finalCut ms last ≤ last := by
  intro ms
  induction ms with
  | nil => intro last _ _ _; exact Nat.le_refl last
  | cons m ms ih =>
    intro last hs hp hlt
    rw [List.pairwise_cons] at hp
    rw [finalCut]
    have h1 : finalCut ms m.startPos ≤ m.startPos := by
      apply ih m.startPos
      · intro m' hm'
        have := hp.1 m' hm'
        have := hlt m' (List.mem_cons_of_mem m hm')
        omega
      · exact hp.2
      · exact fun m' hm' => hlt m' (List.mem_cons_of_mem m hm')
    exact Nat.le_trans h1 (hs m (List.mem_cons_self m ms))

/-- Concatenating the plain text of the `buildNodes` decomposition,
markers stripped, reproduces the slice from the final cut point to the
initial one. -/
lemma textConcat_build (s : Str) :
    ∀ (ms : List VMatch) (last : Nat),
      (∀ m ∈ ms, m.startPos < m.endPos ∧ m.endPos ≤ s.length) →
      (ms.Pairwise fun a b => b.endPos ≤ a.startPos) →
      (∀ m ∈ ms, m.endPos ≤ last) →
      last ≤ s.length →
      textConcat (buildNodes s ms last) = strSlice s (finalCut ms last) last := by
  intro ms
  induction ms with
  | nil =>
    intro last _ _ _ _
    rw [buildNodes, finalCut, textConcat, List.flatMap_nil,
      strSlice_of_ge s last last (Nat.le_refl last)]
  | cons m ms ih =>
    intro last hb hp hl hsl
    have hmb := hb m (List.mem_cons_self m ms)
    have hml := hl m (List.mem_cons_self m ms)
    rw [List.pairwise_cons] at hp
    have hfc : finalCut ms m.startPos ≤ m.startPos := by
      apply finalCut_le ms m.startPos
      · intro m' hm'
        have := hp.1 m' hm'
        have := (hb m' (List.mem_cons_of_mem m hm')).1
        omega
      · exact hp.2
      · exact fun m' hm' => (hb m' (List.mem_cons_of_mem m hm')).1
    rw [buildNodes, finalCut, textConcat_append,
      ih m.startPos (fun m' hm' => hb m' (List.mem_cons_of_mem m hm'))
        hp.2 (fun m' hm' => hp.1 m' hm') (by omega)]
    have hgap : textConcat
        (DomNode.text (strSlice s m.startPos m.endPos) ::
          DomNode.marker m.matchedText m.data ::
            (if m.endPos < last then [DomNode.text (strSlice s m.endPos last)]
             else [])) =
        strSlice s m.startPos m.endPos ++ strSlice s m.endPos last := by
      by_cases hel : m.endPos < last
      · rw [if_pos hel]
        simp [textConcat]
      · rw [if_neg hel]
        rw [strSlice_of_ge s m.endPos last (by omega)]
        simp [textConcat]
    rw [hgap, ← List.append_assoc,
      strSlice_append s _ m.startPos m.endPos hfc (Nat.le_of_lt hmb.1),
      strSlice_append s _ m.endPos last (by omega) hml]

/-- C2: rewriting one text node with any list of in-bounds, pairwise
disjoint (non-nested, non-empty) match spans and then concatenating the
produced plain-text fragments in document order, stripping the marker
labels, reproduces the original node text exactly. -/
theorem c2_rewrite_round_trip (s : Str) (ms : List VMatch)
    (hb : ∀ m ∈ ms, m.startPos < m.endPos ∧ m.endPos ≤ s.length)
    (hd : ms.Pairwise spanDisjoint) :
    textConcat (processAllMatches s (sortMatchesDesc ms)) = s := by
  have hperm : (sortMatchesDesc ms).Perm ms :=
    List.perm_insertionSort descStart ms
  have hbL : ∀ m ∈ sortMatchesDesc ms,
      m.startPos < m.endPos ∧ m.endPos ≤ s.length :=
    fun m hm => hb m (hperm.mem_iff.mp hm)
  have hsorted : (sortMatchesDesc ms).Pairwise descStart :=
    List.sorted_insertionSort descStart ms
  have hdL : (sortMatchesDesc ms).Pairwise spanDisjoint :=
    (hperm.pairwise_iff fun hab => Or.symm hab).mpr hd
  have hchain : (sortMatchesDesc ms).Pairwise fun a b => b.endPos ≤ a.startPos := by
    refine List.Pairwise.imp_of_mem ?_ (hsorted.and hdL)
    intro a b hma hmb hab
    rcases hab.2 with h | h
    · have h1 := (hbL a hma).1
      have h2 := hab.1
      rw [descStart] at h2
      omega
    · exact h
  have hlast : ∀ m ∈ sortMatchesDesc ms, m.endPos ≤ s.length :=
    fun m hm => (hbL m hm).2
  have hfc : finalCut (sortMatchesDesc ms) s.length ≤ s.length := by
    apply finalCut_le _ s.length
    · intro m hm
      have := hbL m hm
      omega
    · exact hchain
    · exact fun m hm => (hbL m hm).1
  simp only [processAllMatches]
  rw [processMatchesAux_eq_build s _ [] s.length hbL hchain hlast (Nat.le_refl _),
    List.append_nil]
  dsimp only
  have htc := textConcat_build s (sortMatchesDesc ms) s.length hbL hchain hlast
    (Nat.le_refl _)
  by_cases h0 : 0 < finalCut (sortMatchesDesc ms) s.length
  · rw [if_pos h0]
    have hlead : jsSubstring s 0 (finalCut (sortMatchesDesc ms) s.length) =
        strSlice s 0 (finalCut (sortMatchesDesc ms) s.length) :=
      jsSubstring_of_le s _ _ (Nat.zero_le _) hfc
    calc textConcat (DomNode.text
          (jsSubstring s 0 (finalCut (sortMatchesDesc ms) s.length)) ::
            buildNodes s (sortMatchesDesc ms) s.length) =
        jsSubstring s 0 (finalCut (sortMatchesDesc ms) s.length) ++
          textConcat (buildNodes s (sortMatchesDesc ms) s.length) := by
          simp [textConcat]
      _ = s := by
          rw [hlead, htc, strSlice_append s 0 _ s.length (Nat.zero_le _) hfc,
            strSlice_zero_length]
  · rw [if_neg h0]
    rw [htc]
    have : finalCut (sortMatchesDesc ms) s.length = 0 := by omega
    rw [this, strSlice_zero_length]

theorem c2_rewrite_round_trip_witness :
    textConcat (processAllMatches "ab-cd ef".toList
      (sortMatchesDesc
        [⟨"ab".toList, ⟨"ab".toList, "甲".toList, [] ⟩, 0, 2, "ab".toList⟩,
         ⟨"cd".toList, ⟨"cd".toList, "乙".toList, [] ⟩, 3, 5, "cd".toList⟩])) =
      "ab-cd ef".toList :=
  c2_rewrite_round_trip "ab-cd ef".toList
    [⟨"ab".toList, ⟨"ab".toList, "甲".toList, [] ⟩, 0, 2, "ab".toList⟩,
     ⟨"cd".toList, ⟨"cd".toList, "乙".toList, [] ⟩, 3, 5, "cd".toList⟩]
    (by decide) (by decide)

/-- C5 counterexample: for the two-character term `"ab"` and the
document `"the ab word"`, the first scan marks the occurrence, but the
second scan removes the marker and cannot recreate it because the
matched word now sits in its own text node of trimmed length 2, which
the `[3, 500]` length filter rejects — so scanning twice differs from
scanning once. -/
theorem c5_counterexample_short_term :
    scanDoc [⟨"ab".toList, "x".toList, [] ⟩]
        (scanDoc [⟨"ab".toList, "x".toList, [] ⟩]
          [DomNode.text "the ab word".toList]) ≠
      scanDoc [⟨"ab".toList, "x".toList, [] ⟩]
        [DomNode.text "the ab word".toList] := by
  decide

/-!
### The length filter and word-only fragments
-/

lemma shouldProcessTextNode_iff (s : Str) :
    shouldProcessTextNode s = true ↔
      3 ≤ (jsTrim s).length ∧ (jsTrim s).length ≤ 500 := by
  rw [shouldProcessTextNode]
  simp only [Bool.not_eq_true', Bool.or_eq_false_iff, decide_eq_false_iff_not]
  omega

lemma countP_nonws_dropWhile (l : Str) :
    (l.dropWhile Char.isWhitespace).countP (fun c => !c.isWhitespace) =
      l.countP (fun c => !c.isWhitespace) := by
  conv_rhs => rw [← List.takeWhile_append_dropWhile Char.isWhitespace l]
  rw [List.countP_append]
  have h0 : (l.takeWhile Char.isWhitespace).countP (fun c => !c.isWhitespace) = 0 := by
    rw [List.countP_eq_zero]
    intro c hc
    have hws := List.mem_takeWhile_imp hc
    simp [hws]
  omega

lemma countP_nonws_le_trim_length (s : Str) :
    s.countP (fun c => !c.isWhitespace) ≤ (jsTrim s).length := by
  have h1 : (jsTrim s).countP (fun c => !c.isWhitespace) =
      s.countP (fun c => !c.isWhitespace) := by
    rw [jsTrim, List.countP_reverse, countP_nonws_dropWhile,
      List.countP_reverse, countP_nonws_dropWhile]
  calc s.countP (fun c => !c.isWhitespace) =
      (jsTrim s).countP (fun c => !c.isWhitespace) := h1.symm
    _ ≤ (jsTrim s).length := List.countP_le_length _

lemma mem_strSlice (s : Str) (a b : Nat) (c : Char) (h : c ∈ strSlice s a b) :
    c ∈ s := by
  rw [strSlice] at h
  exact List.mem_of_mem_drop (List.mem_of_mem_take h)

lemma countP_strSlice_le (s : Str) (a b : Nat) (p : Char → Bool) :
    (strSlice s a b).countP p ≤ s.countP p := by
  rw [strSlice]
  calc ((s.drop a).take (b - a)).countP p ≤ (s.drop a).countP p := by
        conv_rhs => rw [← List.take_append_drop (b - a) (s.drop a)]
        rw [List.countP_append]
        omega
    _ ≤ s.countP p := by
        conv_rhs => rw [← List.take_append_drop a s]
        rw [List.countP_append]
        omega

/-- Every character of an occurrence's slice is a word character. -/
lemma slice_all_word_of_occursAt {w s : Str} {i : Nat}
    (hw : w.all isWordChar = true) (h : occursAt w s i = true) :
    ∀ c ∈ strSlice s i (i + w.length), isWordChar c = true := by
  intro c hc
  have hb := bounds_of_occursAt h
  obtain ⟨j, hcj⟩ := List.getElem?_of_mem hc
  have hjlen : j < w.length := by
    have := List.getElem?_eq_some_iff.mp hcj
    obtain ⟨hlt, _⟩ := this
    rw [strSlice_length s i (i + w.length) hb] at hlt
    omega
  rw [strSlice_getElem? s i (i + w.length) j (by omega)] at hcj
  have := wordAt_of_occursAt hw h (i + j) (by omega) (by omega)
  rw [wordAt_of_getElem? hcj] at this
  exact this

/-- Inside a node that passes the length filter, a matched word-only
term has length at most 500 (it consists of non-whitespace characters,
whose total count is bounded by the trimmed length). -/
lemma occ_word_le_500 {terms0 : Str} {s : Str} {i : Nat}
    (hsp : shouldProcessTextNode s = true)
    (hw : terms0.all isWordChar = true) (h : occursAt terms0 s i = true) :
    terms0.length ≤ 500 := by
  have hb := bounds_of_occursAt h
  have hslen : (strSlice s i (i + terms0.length)).length = terms0.length :=
    strSlice_length s i (i + terms0.length) hb |>.trans (by omega)
  have hall : ∀ c ∈ strSlice s i (i + terms0.length), (!c.isWhitespace) = true := by
    intro c hc
    have hword := slice_all_word_of_occursAt hw h c hc
    rw [Bool.not_eq_true']
    exact not_whitespace_of_isWordChar c hword
  have h1 : (strSlice s i (i + terms0.length)).countP (fun c => !c.isWhitespace) =
      terms0.length := by
    rw [List.countP_eq_length.mpr hall, hslen]
  have h2 := countP_strSlice_le s i (i + terms0.length) (fun c => !c.isWhitespace)
  have h3 := countP_nonws_le_trim_length s
  have h4 := (shouldProcessTextNode_iff s).mp hsp
  omega

lemma dropWhile_ws_of_nonws {u : Str} (h : ∀ c ∈ u, c.isWhitespace = false) :
    u.dropWhile Char.isWhitespace = u := by
  cases u with
  | nil => rfl
  | cons c rest =>
    apply List.dropWhile_cons_of_neg
    rw [h c (List.mem_cons_self c rest)]
    exact Bool.false_ne_true

lemma jsTrim_of_nonws {u : Str} (h : ∀ c ∈ u, c.isWhitespace = false) :
    jsTrim u = u := by
  rw [jsTrim, dropWhile_ws_of_nonws h, dropWhile_ws_of_nonws
    (fun c hc => h c (List.mem_reverse.mp hc)), List.reverse_reverse]

/-- A word-only fragment of length `3 ≤ n ≤ 500` passes the scan
filter. -/
lemma shouldProcess_of_word_fragment {u : Str} (hw : u.all isWordChar = true)
    (h3 : 3 ≤ u.length) (h500 : u.length ≤ 500) :
    shouldProcessTextNode u = true := by
  rw [shouldProcessTextNode_iff, jsTrim_of_nonws]
  · exact ⟨h3, h500⟩
  · intro c hc
    exact not_whitespace_of_isWordChar c (List.all_eq_true.mp hw c hc)

/-!
### Occurrences inside fragments produced by a rewrite
-/

lemma wordAt_true_of_all {u : Str} (hall : u.all isWordChar = true)
    {k : Nat} (hk : k < u.length) : wordAt u k = true := by
  obtain ⟨c, hc⟩ : ∃ c, u[k]? = some c := ⟨_, List.getElem?_eq_getElem hk⟩
  rw [wordAt_of_getElem? hc]
  exact List.all_eq_true.mp hall c (List.getElem?_mem hc)

lemma wordAt_strSlice (s : Str) (a b k : Nat) (h : k < b - a) :
    wordAt (strSlice s a b) k = wordAt s (a + k) := by
  rw [wordAt, wordAt, strSlice_getElem? s a b k h]

lemma strSlice_strSlice (s : Str) (a b j k : Nat) (hk : k ≤ b - a) :
    strSlice (strSlice s a b) j k = strSlice s (a + j) (a + k) := by
  rw [strSlice, strSlice, strSlice, List.drop_take, List.drop_drop,
    List.take_take, show a + k - (a + j) = k - j by omega,
    Nat.min_eq_left (by omega)]

lemma lowerStr_length_eq {x y : Str} (h : lowerStr x = lowerStr y) :
    x.length = y.length := by
  have := congrArg List.length h
  simpa [lowerStr] using this

/-- Occurrences inside an all-word fragment: only the whole fragment
can match, and only for a term equal to it case-insensitively. -/
lemma occursAt_word_fragment {w u : Str}
    (hwu : u.all isWordChar = true) (hu : 0 < u.length)
    (hw : w.all isWordChar = true) (hlw : 0 < w.length) (j : Nat) :
    occursAt w u j = true ↔ (j = 0 ∧ lowerStr w = lowerStr u) := by
  constructor
  · intro hocc
    have hb := bounds_of_occursAt hocc
    have hedge := edges_of_occursAt hw hlw hocc
    have hj0 : j = 0 := by
      rcases hedge.1 with h0 | hf
      · exact h0
      · by_contra hne
        rw [wordAt_true_of_all hwu (by omega)] at hf
        exact absurd hf (by simp)
    subst hj0
    have hend : w.length = u.length := by
      by_contra hne
      have hlt : w.length < u.length := by omega
      have hwa : wordAt u (0 + w.length) = true :=
        wordAt_true_of_all hwu (by omega)
      rw [hwa] at hedge
      exact absurd hedge.2 (by simp)
    refine ⟨rfl, ?_⟩
    have hlow := lower_slice_of_occursAt hocc
    rw [show (0 : Nat) + w.length = w.length by omega, hend] at hlow
    rw [← hlow, strSlice_zero_length]
  · rintro ⟨rfl, hlow⟩
    have hend : w.length = u.length := lowerStr_length_eq hlow
    rw [occursAt_iff]
    refine ⟨by omega, ?_, ?_, ?_⟩
    · rw [show (0 : Nat) + w.length = w.length by omega, hend,
        strSlice_zero_length]
      exact hlow.symm
    · rw [boundaryAt, if_pos rfl, wordAt_true_of_all hwu (by omega)]
      rfl
    · rw [boundaryAt, if_neg (by omega : ¬ 0 + w.length = 0),
        wordAt_true_of_all hwu (by omega : 0 + w.length - 1 < u.length),
        wordAt_of_none (by omega : u.length ≤ 0 + w.length)]
      rfl

lemma matchPosAux_oob (w s : Str) (fuel i : Nat) (h : s.length < i + w.length) :
    matchPosAux w s fuel i = [] := by
  cases fuel with
  | zero => rfl
  | succ fuel => rw [matchPosAux, if_neg (by omega)]

lemma matchPositions_word_fragment_self {w u : Str}
    (hwu : u.all isWordChar = true) (hu : 0 < u.length)
    (hw : w.all isWordChar = true) (hlw : 0 < w.length)
    (hlow : lowerStr w = lowerStr u) :
    matchPositions w u = [0] := by
  have hend : w.length = u.length := lowerStr_length_eq hlow
  rw [matchPositions, matchPosAux, if_pos ⟨hlw, by omega⟩,
    if_pos ((occursAt_word_fragment hwu hu hw hlw 0).mpr ⟨rfl, hlow⟩),
    matchPosAux_oob w u _ _ (by omega)]

lemma matchPositions_word_fragment_ne {w u : Str}
    (hwu : u.all isWordChar = true) (hu : 0 < u.length)
    (hw : w.all isWordChar = true) (hlw : 0 < w.length)
    (hne : lowerStr w ≠ lowerStr u) :
    matchPositions w u = [] := by
  rw [matchPositions]
  apply matchPosAux_eq_nil
  intro j
  cases hocc : occursAt w u j with
  | false => rfl
  | true =>
    exact absurd ((occursAt_word_fragment hwu hu hw hlw j).mp hocc).2 hne

/-- Inside an all-word fragment equal (case-insensitively) to the term
`t` of a good, distinct term set, the scan finds exactly the one
whole-fragment match for `t`. -/
lemma allMatches_word_fragment {terms : List TermEntry} {u : Str} {t : TermEntry}
    (hterms : ∀ t' ∈ terms, goodTerm t') (hdist : termsDistinctCI terms)
    (ht : t ∈ terms) (hwu : u.all isWordChar = true) (hu : 0 < u.length)
    (hlow : lowerStr t.word = lowerStr u) :
    allMatches terms u = [mkMatch u t 0] := by
  induction terms with
  | nil => cases ht
  | cons t0 ts ih =>
    rw [allMatches_cons]
    rw [termsDistinctCI, List.pairwise_cons] at hdist
    have hterms' : ∀ t' ∈ ts, goodTerm t' :=
      fun t' ht' => hterms t' (List.mem_cons_of_mem t0 ht')
    obtain ⟨h30, hword0⟩ := hterms t0 (List.mem_cons_self t0 ts)
    by_cases hl0 : lowerStr t0.word = lowerStr u
    · have ht0 : t = t0 := by
        rcases List.mem_cons.mp ht with rfl | hts
        · rfl
        · exact absurd (hl0.trans hlow.symm) (hdist.1 t hts)
      subst ht0
      rw [matchPositions_word_fragment_self hwu hu hword0 (by omega) hl0]
      have hrest : allMatches ts u = [] := by
        apply List.flatMap_eq_nil_iff.mpr
        intro t' ht'
        obtain ⟨h3', hword'⟩ := hterms' t' ht'
        rw [matchPositions_word_fragment_ne hwu hu hword' (by omega)
          (fun hq => hdist.1 t' ht' (hl0.trans hq.symm))]
        rfl
      rw [hrest]
      rfl
    · have hts : t ∈ ts := by
        rcases List.mem_cons.mp ht with rfl | hts
        · exact absurd hlow hl0
        · exact hts
      rw [matchPositions_word_fragment_ne hwu hu hword0 (by omega) hl0]
      rw [List.map_nil, List.nil_append]
      rw [allMatches] at ih ⊢
      exact ih hterms' hdist.2 hts

/-- An occurrence inside a standalone gap fragment maps to an
occurrence of the same term in the full text, provided the gap's edges
either coincide with the text's edges or sit next to non-word
characters. -/
lemma occursAt_slice_transfer {w s : Str} {a b j : Nat}
    (hw : w.all isWordChar = true) (hlw : 0 < w.length)
    (hab : a ≤ b) (hbs : b ≤ s.length)
    (hA : a = 0 ∨ wordAt s a = false)
    (hB : b = s.length ∨ wordAt s (b - 1) = false)
    (hocc : occursAt w (strSlice s a b) j = true) :
    occursAt w s (a + j) = true ∧ a + j + w.length ≤ b := by
  have hglen : (strSlice s a b).length = b - a := strSlice_length s a b hbs
  have hb0 := bounds_of_occursAt hocc
  rw [hglen] at hb0
  have hspan := wordAt_of_occursAt hw hocc
  have hedge := edges_of_occursAt hw hlw hocc
  have hin : a + j + w.length ≤ b := by omega
  have hright : wordAt s (a + j) = true := by
    rw [← wordAt_strSlice s a b j (by omega)]
    exact hspan j (Nat.le_refl j) (by omega)
  have hleftlast : wordAt s (a + j + w.length - 1) = true := by
    rw [show a + j + w.length - 1 = a + (j + w.length - 1) by omega,
      ← wordAt_strSlice s a b (j + w.length - 1) (by omega)]
    exact hspan (j + w.length - 1) (by omega) (by omega)
  refine ⟨(occursAt_iff w s (a + j)).mpr ⟨by omega, ?_, ?_, ?_⟩, hin⟩
  · have hlow := lower_slice_of_occursAt hocc
    rw [strSlice_strSlice s a b j (j + w.length) (by omega)] at hlow
    rw [show a + j + w.length = a + (j + w.length) by omega]
    exact hlow
  · rw [boundaryAt]
    by_cases h0 : a + j = 0
    · rw [if_pos h0, hright]
      rfl
    · rw [if_neg h0, hright]
      by_cases hj0 : j = 0
      · subst hj0
        exfalso
        rcases hA with h | h
        · omega
        · rw [show a + 0 = a from rfl] at hright
          rw [hright] at h
          exact absurd h (by simp)
      · have hlft : wordAt s (a + j - 1) = false := by
          rcases hedge.1 with h | h
          · exact absurd h hj0
          · rw [show a + j - 1 = a + (j - 1) by omega,
              ← wordAt_strSlice s a b (j - 1) (by omega)]
            exact h
        rw [hlft]
        rfl
  · rw [boundaryAt, if_neg (by omega : ¬ a + j + w.length = 0), hleftlast]
    have hrt : wordAt s (a + j + w.length) = false := by
      by_cases hend : j + w.length < b - a
      · rw [show a + j + w.length = a + (j + w.length) by omega,
          ← wordAt_strSlice s a b (j + w.length) hend]
        exact hedge.2
      · have hbe : a + j + w.length = b := by omega
        rcases hB with h | h
        · rw [hbe, h]
          exact wordAt_of_none (Nat.le_refl _)
        · exfalso
          rw [show b - 1 = a + j + w.length - 1 by omega, hleftlast] at h
          exact absurd h (by simp)
    rw [hrt]
    rfl

lemma allMatches_nil_of_no_pos {terms : List TermEntry} {g : Str}
    (h : ∀ t ∈ terms, matchPositions t.word g = []) :
    allMatches terms g = [] := by
  rw [allMatches]
  apply List.flatMap_eq_nil_iff.mpr
  intro t ht
  rw [h t ht]
  rfl

/-- A gap fragment cut between matched spans (or before the first or
after the last) contains no whole-word occurrence of any term, because
any occurrence would transfer to an occurrence in the full text that no
matched span covers. -/
lemma allMatches_gap_nil {terms : List TermEntry} {s : Str} {a b : Nat}
    (hterms : ∀ t ∈ terms, goodTerm t)
    (hab : a ≤ b) (hbs : b ≤ s.length)
    (hA : a = 0 ∨ wordAt s a = false)
    (hB : b = s.length ∨ wordAt s (b - 1) = false)
    (hnocc : ∀ t ∈ terms, ∀ j, a ≤ j → j + t.word.length ≤ b →
      occursAt t.word s j = false) :
    allMatches terms (strSlice s a b) = [] := by
  apply allMatches_nil_of_no_pos
  intro t ht
  obtain ⟨h3, hword⟩ := hterms t ht
  rw [matchPositions]
  apply matchPosAux_eq_nil
  intro j
  cases hocc : occursAt t.word (strSlice s a b) j with
  | false => rfl
  | true =>
    exfalso
    obtain ⟨htr, hle⟩ := occursAt_slice_transfer hword (by omega) hab hbs hA hB hocc
    have := hnocc t ht (a + j) (by omega) hle
    rw [this] at htr
    exact absurd htr (by simp)

/-- A text node on which the term patterns produce no match is left
untouched by the per-node rewrite. -/
lemma rewriteNode_no_match {terms : List TermEntry} {g : Str}
    (h : allMatches terms g = []) :
    rewriteNode terms (DomNode.text g) = [DomNode.text g] := by
  rw [rewriteNode]
  split_ifs with hp
  · rw [processTextNode, h]
    rfl
  · rfl

lemma processTextNode_eq (terms : List TermEntry) (s : Str) :
    processTextNode terms s =
      if 0 < (allMatches terms s).length then
        processAllMatches s (sortMatchesDesc (allMatches terms s))
      else [DomNode.text s] := rfl

lemma sortMatchesDesc_singleton (m : VMatch) : sortMatchesDesc [m] = [m] := rfl

/-- Re-scanning the text fragment that holds one matched word
reproduces exactly the fragment followed by its bubble. -/
lemma rewriteNode_word_fragment {terms : List TermEntry} {u : Str} {t : TermEntry}
    (hterms : ∀ t' ∈ terms, goodTerm t') (hdist : termsDistinctCI terms)
    (ht : t ∈ terms) (hwu : u.all isWordChar = true)
    (h3 : 3 ≤ u.length) (h500 : u.length ≤ 500)
    (hlow : lowerStr t.word = lowerStr u) :
    rewriteNode terms (DomNode.text u) =
      [DomNode.text u, DomNode.marker u t] := by
  have hlen : t.word.length = u.length := lowerStr_length_eq hlow
  have hm : allMatches terms u = [mkMatch u t 0] :=
    allMatches_word_fragment hterms hdist ht hwu (by omega) hlow
  rw [rewriteNode, if_pos (shouldProcess_of_word_fragment hwu h3 h500),
    processTextNode_eq, hm, if_pos (by simp), sortMatchesDesc_singleton]
  have hbnd : ∀ m ∈ [mkMatch u t 0],
      m.startPos < m.endPos ∧ m.endPos ≤ u.length := by
    intro m hm'
    rw [List.mem_singleton] at hm'
    subst hm'
    exact ⟨by show 0 < 0 + t.word.length; omega,
      by show 0 + t.word.length ≤ u.length; omega⟩
  have hpw : ([mkMatch u t 0]).Pairwise fun a b => b.endPos ≤ a.startPos := by
    simp
  have hll : ∀ m ∈ [mkMatch u t 0], m.endPos ≤ u.length :=
    fun m hm' => (hbnd m hm').2
  simp only [processAllMatches]
  rw [processMatchesAux_eq_build u _ [] u.length hbnd hpw hll (Nat.le_refl _)]
  dsimp only
  rw [show finalCut [mkMatch u t 0] u.length = 0 from rfl, if_neg (by omega),
    List.append_nil, buildNodes, buildNodes]
  have hif : ¬ (mkMatch u t 0).endPos < u.length := by
    show ¬ 0 + t.word.length < u.length
    omega
  rw [if_neg hif]
  have hu : strSlice u (mkMatch u t 0).startPos (mkMatch u t 0).endPos = u := by
    show strSlice u 0 (0 + t.word.length) = u
    rw [show 0 + t.word.length = u.length by omega, strSlice_zero_length]
  have hmt : (mkMatch u t 0).matchedText = u := by
    show strSlice u 0 (0 + t.word.length) = u
    rw [show 0 + t.word.length = u.length by omega, strSlice_zero_length]
  rw [hu, hmt]
  rfl

lemma finalCut_le_of_desc : ∀ (ms : List VMatch) (last : Nat),
    (∀ m ∈ ms, m.startPos ≤ last) → ms.Pairwise descStart →
    finalCut ms last ≤ last := by
  intro ms
  induction ms with
  | nil => intro last _ _; exact Nat.le_refl last
  | cons m ms ih =>
    intro last hs hp
    rw [List.pairwise_cons] at hp
    rw [finalCut]
    exact Nat.le_trans
      (ih m.startPos (fun m' hm' => hp.1 m' hm') hp.2)
      (hs m (List.mem_cons_self m ms))

lemma finalCut_min : ∀ (ms : List VMatch) (last : Nat),
    ms.Pairwise descStart → ∀ m' ∈ ms, finalCut ms last ≤ m'.startPos := by
  intro ms
  induction ms with
  | nil => intro last _ m' hm'; cases hm'
  | cons m ms ih =>
    intro last hp m' hm'
    rw [List.pairwise_cons] at hp
    rw [finalCut]
    rcases List.mem_cons.mp hm' with rfl | hms
    · exact finalCut_le_of_desc ms m'.startPos (fun q hq => hp.1 q hq) hp.2
    · exact ih m.startPos hp.2 m' hms

lemma finalCut_mem : ∀ (ms : List VMatch) (last : Nat), ms ≠ [] →
    ∃ m ∈ ms, finalCut ms last = m.startPos := by
  intro ms
  induction ms with
  | nil => intro last h; exact absurd rfl h
  | cons m ms ih =>
    intro last _
    by_cases hms : ms = []
    · subst hms
      exact ⟨m, List.mem_cons_self m [], rfl⟩
    · obtain ⟨q, hq, hfc⟩ := ih m.startPos hms
      refine ⟨q, List.mem_cons_of_mem m hq, ?_⟩
      rw [finalCut]
      exact hfc

/-- Rescanning the cleared output of `buildNodes` reproduces it: each
matched-word fragment regrows exactly its bubble and each gap fragment
stays untouched. -/
lemma rescan_build {terms : List TermEntry} {s : Str}
    (hterms : ∀ t ∈ terms, goodTerm t) (hdist : termsDistinctCI terms)
    (hsp : shouldProcessTextNode s = true)
    (sortedAll : List VMatch)
    (hcompl : ∀ t ∈ terms, ∀ j, occursAt t.word s j = true →
      mkMatch s t j ∈ sortedAll) :
    ∀ (ms : List VMatch) (last : Nat),
      (∀ m ∈ ms, ∃ t ∈ terms, ∃ j, occursAt t.word s j = true ∧ m = mkMatch s t j) →
      ms.Pairwise (fun a b => b.endPos ≤ a.startPos) →
      (∀ m ∈ ms, m.endPos ≤ last) →
      last ≤ s.length →
      (0 < last → last = s.length ∨ wordAt s (last - 1) = false) →
      (∀ m' ∈ sortedAll, last ≤ m'.startPos ∨ m' ∈ ms) →
      (clearVocabularyBubbles (buildNodes s ms last)).flatMap (rewriteNode terms) =
        buildNodes s ms last := by
  intro ms
  induction ms with
  | nil =>
    intro last _ _ _ _ _ _
    rfl
  | cons m ms ih =>
    intro last hmem hp hl hsl hedge hinv
    obtain ⟨t, ht, j, hocc, hmdef⟩ := hmem m (List.mem_cons_self m ms)
    obtain ⟨h3, hword⟩ := hterms t ht
    have hjb := bounds_of_occursAt hocc
    have hedges := edges_of_occursAt hword (by omega) hocc
    have hml := hl m (List.mem_cons_self m ms)
    have hmstart : m.startPos = j := by rw [hmdef]; rfl
    have hmend : m.endPos = j + t.word.length := by rw [hmdef]; rfl
    rw [List.pairwise_cons] at hp
    have h500 : t.word.length ≤ 500 := occ_word_le_500 hsp hword hocc
    -- the matched-word fragment
    have huall : (strSlice s j (j + t.word.length)).all isWordChar = true :=
      List.all_eq_true.mpr (slice_all_word_of_occursAt hword hocc)
    have hulen : (strSlice s j (j + t.word.length)).length = t.word.length := by
      rw [strSlice_length s _ _ hjb]
      omega
    have hwfrag :
        rewriteNode terms (DomNode.text (strSlice s j (j + t.word.length))) =
          [DomNode.text (strSlice s j (j + t.word.length)),
           DomNode.marker (strSlice s j (j + t.word.length)) t] :=
      rewriteNode_word_fragment hterms hdist ht huall
        (by omega) (by omega) (lower_slice_of_occursAt hocc).symm
    -- the trailing gap fragment
    have hgap : m.endPos < last →
        rewriteNode terms (DomNode.text (strSlice s m.endPos last)) =
          [DomNode.text (strSlice s m.endPos last)] := by
      intro hel
      apply rewriteNode_no_match
      apply allMatches_gap_nil hterms (by omega) hsl
      · right
        rw [hmend]
        exact hedges.2
      · rcases hedge (by omega) with h | h
        · exact Or.inl h
        · exact Or.inr h
      · intro t' ht' j' hj1 hj2
        cases hocc' : occursAt t'.word s j' with
        | false => rfl
        | true =>
          exfalso
          have hmem' := hcompl t' ht' j' hocc'
          obtain ⟨h3', _⟩ := hterms t' ht'
          rcases hinv _ hmem' with hge | hin
          · have : (mkMatch s t' j').startPos = j' := rfl
            omega
          · rcases List.mem_cons.mp hin with heq | hin2
            · have : (mkMatch s t' j').startPos = j' := rfl
              rw [heq] at this
              omega
            · have hq := hp.1 _ hin2
              have hstart : (mkMatch s t' j').startPos = j' := rfl
              have hend : (mkMatch s t' j').endPos = j' + t'.word.length := rfl
              omega
    -- assemble
    rw [buildNodes]
    have hclear :
        clearVocabularyBubbles (buildNodes s ms m.startPos ++
          DomNode.text (strSlice s m.startPos m.endPos) ::
            DomNode.marker m.matchedText m.data ::
              (if m.endPos < last then [DomNode.text (strSlice s m.endPos last)]
               else [])) =
        clearVocabularyBubbles (buildNodes s ms m.startPos) ++
          DomNode.text (strSlice s m.startPos m.endPos) ::
            (if m.endPos < last then [DomNode.text (strSlice s m.endPos last)]
             else []) := by
      by_cases hel : m.endPos < last
      · rw [if_pos hel, clearVocabularyBubbles,
          clearVocabularyBubbles, List.filter_append]
        rfl
      · rw [if_neg hel, clearVocabularyBubbles,
          clearVocabularyBubbles, List.filter_append]
        rfl
    rw [hclear, List.flatMap_append]
    have hih : (clearVocabularyBubbles (buildNodes s ms m.startPos)).flatMap
        (rewriteNode terms) = buildNodes s ms m.startPos := by
      apply ih
      · exact fun m' hm' => hmem m' (List.mem_cons_of_mem m hm')
      · exact hp.2
      · exact fun m' hm' => hp.1 m' hm'
      · omega
      · intro h0
        right
        rcases hedges.1 with hz | hnz
        · omega
        · rw [hmstart, show j - 1 = j - 1 from rfl]
          exact hnz
      · intro m' hm'
        rcases hinv m' hm' with hge | hin
        · left
          have := hl m (List.mem_cons_self m ms)
          omega
        · rcases List.mem_cons.mp hin with heq | hin2
          · left
            rw [heq]
          · exact Or.inr hin2
    rw [hih]
    congr 1
    -- middle group
    have hmdata : m.data = t := by rw [hmdef]; rfl
    have hmtext : m.matchedText = strSlice s j (j + t.word.length) := by
      rw [hmdef]; rfl
    by_cases hel : m.endPos < last
    · rw [if_pos hel]
      rw [List.flatMap_cons, List.flatMap_cons, List.flatMap_nil]
      rw [hmend] at hgap hel
      rw [hmstart, hmend, hwfrag, hgap hel, hmtext, hmdata]
      rfl
    · rw [if_neg hel]
      rw [List.flatMap_cons, List.flatMap_nil]
      rw [hmstart, hmend, hwfrag, hmtext, hmdata]
      rfl

/-- Clearing the bubbles out of one rewritten text node and rescanning
the remaining fragments reproduces the rewritten node exactly. -/
lemma rescan_node {terms : List TermEntry} {s : Str}
    (hterms : ∀ t ∈ terms, goodTerm t) (hdist : termsDistinctCI terms) :
    (clearVocabularyBubbles (rewriteNode terms (DomNode.text s))).flatMap
      (rewriteNode terms) = rewriteNode terms (DomNode.text s) := by
  by_cases hsp : shouldProcessTextNode s = true
  · by_cases hempty : allMatches terms s = []
    · have h1 : rewriteNode terms (DomNode.text s) = [DomNode.text s] :=
        rewriteNode_no_match hempty
      rw [h1, show clearVocabularyBubbles [DomNode.text s] =
          [DomNode.text s] from rfl,
        List.flatMap_cons, List.flatMap_nil, h1, List.append_nil]
    · have hperm : (sortMatchesDesc (allMatches terms s)).Perm
          (allMatches terms s) :=
        List.perm_insertionSort descStart (allMatches terms s)
      have hbL : ∀ m ∈ sortMatchesDesc (allMatches terms s),
          m.startPos < m.endPos ∧ m.endPos ≤ s.length :=
        fun m hm => matchFacts_of_mem hterms (hperm.mem_iff.mp hm)
      have hsorted : (sortMatchesDesc (allMatches terms s)).Pairwise descStart :=
        List.sorted_insertionSort descStart (allMatches terms s)
      have hdisj : (sortMatchesDesc (allMatches terms s)).Pairwise spanDisjoint :=
        (hperm.pairwise_iff fun hab => Or.symm hab).mpr
          (allMatches_pairwise_disjoint hterms hdist)
      have hchain : (sortMatchesDesc (allMatches terms s)).Pairwise
          fun a b => b.endPos ≤ a.startPos := by
        refine List.Pairwise.imp_of_mem ?_ (hsorted.and hdisj)
        intro a b hma hmb hab
        rcases hab.2 with h | h
        · have h1 := (hbL a hma).1
          have h2 := hab.1
          rw [descStart] at h2
          omega
        · exact h
      have hmemchar : ∀ m ∈ sortMatchesDesc (allMatches terms s),
          ∃ t ∈ terms, ∃ j, occursAt t.word s j = true ∧ m = mkMatch s t j :=
        fun m hm => (mem_allMatches_iff hterms).mp (hperm.mem_iff.mp hm)
      have hcompl : ∀ t ∈ terms, ∀ j, occursAt t.word s j = true →
          mkMatch s t j ∈ sortMatchesDesc (allMatches terms s) := by
        intro t ht j hocc
        rw [hperm.mem_iff]
        exact (mem_allMatches_iff hterms).mpr ⟨t, ht, j, hocc, rfl⟩
      have hlen0 : 0 < (allMatches terms s).length :=
        List.length_pos.mpr hempty
      have hrw : rewriteNode terms (DomNode.text s) =
          processAllMatches s (sortMatchesDesc (allMatches terms s)) := by
        rw [rewriteNode, if_pos hsp, processTextNode_eq, if_pos hlen0]
      have hll : ∀ m ∈ sortMatchesDesc (allMatches terms s),
          m.endPos ≤ s.length := fun m hm => (hbL m hm).2
      have heq := processMatchesAux_eq_build s (sortMatchesDesc (allMatches terms s))
        [] s.length hbL hchain hll (Nat.le_refl _)
      have hfcle : finalCut (sortMatchesDesc (allMatches terms s)) s.length ≤
          s.length :=
        finalCut_le_of_desc _ s.length
          (fun m hm => by have := hbL m hm; omega) hsorted
      have hfcmin : ∀ m' ∈ sortMatchesDesc (allMatches terms s),
          finalCut (sortMatchesDesc (allMatches terms s)) s.length ≤
            m'.startPos :=
        finalCut_min _ s.length hsorted
      have hbuild := rescan_build hterms hdist hsp
        (sortMatchesDesc (allMatches terms s)) hcompl
        (sortMatchesDesc (allMatches terms s)) s.length hmemchar hchain hll
        (Nat.le_refl _) (fun _ => Or.inl rfl) (fun m' hm' => Or.inr hm')
      have hPA : processAllMatches s (sortMatchesDesc (allMatches terms s)) =
          if 0 < finalCut (sortMatchesDesc (allMatches terms s)) s.length then
            DomNode.text (jsSubstring s 0
              (finalCut (sortMatchesDesc (allMatches terms s)) s.length)) ::
              buildNodes s (sortMatchesDesc (allMatches terms s)) s.length
          else buildNodes s (sortMatchesDesc (allMatches terms s)) s.length := by
        simp only [processAllMatches]
        rw [heq]
        dsimp only
        rw [List.append_nil]
      rw [hrw, hPA]
      by_cases h0 : 0 < finalCut (sortMatchesDesc (allMatches terms s)) s.length
      · rw [if_pos h0]
        have hLne : sortMatchesDesc (allMatches terms s) ≠ [] := by
          intro hnil
          apply hempty
          have hlen := hperm.length_eq
          rw [hnil] at hlen
          exact List.length_eq_zero.mp hlen.symm
        have hlead : rewriteNode terms (DomNode.text (jsSubstring s 0
            (finalCut (sortMatchesDesc (allMatches terms s)) s.length))) =
            [DomNode.text (jsSubstring s 0
              (finalCut (sortMatchesDesc (allMatches terms s)) s.length))] := by
          rw [jsSubstring_of_le s 0 _ (Nat.zero_le _) hfcle]
          apply rewriteNode_no_match
          apply allMatches_gap_nil hterms (Nat.zero_le _) hfcle (Or.inl rfl)
          · obtain ⟨m0, hm0, hfceq⟩ := finalCut_mem _ s.length hLne
            obtain ⟨t0, ht0, j0, hocc0, hm0def⟩ := hmemchar m0 hm0
            have hstart0 : m0.startPos = j0 := by rw [hm0def]; rfl
            obtain ⟨h30, hword0⟩ := hterms t0 ht0
            have hedges0 := edges_of_occursAt hword0 (by omega) hocc0
            rcases hedges0.1 with hz | hnz
            · exfalso
              omega
            · right
              rw [hfceq, hstart0]
              exact hnz
          · intro t' ht' j' hj1 hj2
            cases hocc' : occursAt t'.word s j' with
            | false => rfl
            | true =>
              exfalso
              have hmem' := hcompl t' ht' j' hocc'
              have hge := hfcmin _ hmem'
              have hstart' : (mkMatch s t' j').startPos = j' := rfl
              obtain ⟨h3', _⟩ := hterms t' ht'
              omega
        rw [show clearVocabularyBubbles (DomNode.text (jsSubstring s 0
            (finalCut (sortMatchesDesc (allMatches terms s)) s.length)) ::
            buildNodes s (sortMatchesDesc (allMatches terms s)) s.length) =
          DomNode.text (jsSubstring s 0
            (finalCut (sortMatchesDesc (allMatches terms s)) s.length)) ::
            clearVocabularyBubbles
              (buildNodes s (sortMatchesDesc (allMatches terms s)) s.length)
          from rfl]
        rw [List.flatMap_cons, hlead, hbuild]
        rfl
      · rw [if_neg h0]
        exact hbuild
  · have h1 : rewriteNode terms (DomNode.text s) = [DomNode.text s] := by
      rw [rewriteNode, if_neg hsp]
    rw [h1, show clearVocabularyBubbles [DomNode.text s] =
        [DomNode.text s] from rfl,
      List.flatMap_cons, List.flatMap_nil, h1, List.append_nil]

lemma clear_mem_text {doc : List DomNode} {n : DomNode}
    (h : n ∈ clearVocabularyBubbles doc) : ∃ u, n = DomNode.text u := by
  rw [clearVocabularyBubbles, List.mem_filter] at h
  cases n with
  | text u => exact ⟨u, rfl⟩
  | marker a b => exact absurd h.2 (by simp)

/-- C5 (amended): running the scan twice with the same term set on
unchanged document text reproduces the first scan's node and marker
structure exactly, provided every term is a single word of
word-class characters of length at least 3 and no two terms coincide
case-insensitively. -/
theorem c5_scan_idempotent_for_good_terms (terms : List TermEntry)
    (doc : List DomNode) (hterms : ∀ t ∈ terms, goodTerm t)
    (hdist : termsDistinctCI terms) :
    scanDoc terms (scanDoc terms doc) = scanDoc terms doc := by
  simp only [scanDoc]
  have hstep : clearVocabularyBubbles
      ((clearVocabularyBubbles doc).flatMap (rewriteNode terms)) =
      (clearVocabularyBubbles doc).flatMap
        fun n => clearVocabularyBubbles (rewriteNode terms n) := by
    rw [clearVocabularyBubbles, List.filter_flatMap]
    rfl
  rw [hstep, List.flatMap_assoc]
  apply List.flatMap_congr
  intro n hn
  obtain ⟨u, rfl⟩ := clear_mem_text hn
  exact rescan_node hterms hdist

theorem c5_scan_idempotent_for_good_terms_witness :
    scanDoc [⟨"ephemeral".toList, "短暂的".toList, [] ⟩]
        (scanDoc [⟨"ephemeral".toList, "短暂的".toList, [] ⟩]
          [DomNode.text "the effect was ephemeral and brief".toList]) =
      scanDoc [⟨"ephemeral".toList, "短暂的".toList, [] ⟩]
        [DomNode.text "the effect was ephemeral and brief".toList] :=
  c5_scan_idempotent_for_good_terms
    [⟨"ephemeral".toList, "短暂的".toList, [] ⟩]
    [DomNode.text "the effect was ephemeral and brief".toList]
    (by decide) (by decide)
